import Mathlib

/-!
Shallow embedding of the data-anonymizer engine
(src/data_anonymizer/core/anonymizer.py) and verification of the frozen
claims about it.

Modelling conventions:
* Python scalar cell values are modelled by `Value` (int, float-as-rational,
  string).  Floating point subtleties never matter for the verified claims:
  only truncation `int(x)` and exact arithmetic on small literals appear.
* Cryptographic digests (`hashlib.sha256/sha512/md5`) and the secure RNG
  (`secrets.SystemRandom`) are external libraries, not repository code; they
  are modelled as oracle fields of an `Env` record.  Facts the code relies
  on (digest length 64, hex alphabet, shuffling permutes) appear as explicit
  hypotheses where a claim needs them.
* Fallible Python code (raising `ValueError` / `ZeroDivisionError`) is
  modelled with `Except String`.
* Python strings are modelled through `List Char` where positional
  reasoning is needed.
-/

/-- A scalar cell value: Python `int`, `float` (modelled exactly as a
rational) or `str`. -/
inductive Value where
  | vInt : Int → Value
  | vFloat : ℚ → Value
  | vStr : String → Value
deriving DecidableEq, Repr

/-- Python `str(value)` for the modelled scalar types.  The float rendering
is a definite but unimportant choice: no verified claim inspects the
string form of a float. -/
def strOfValue : Value → String
  | .vInt n => toString n
  | .vFloat q => toString q
  | .vStr s => s

/-- Python `int(x)` on a number: truncation toward zero. -/
def truncRat (q : ℚ) : Int := if q < 0 then q.ceil else q.floor

/-- `int(value)` applied to a numeric `Value` (as in `generalize_numeric`). -/
def truncVal : Value → Int
  | .vInt n => n
  | .vFloat q => truncRat q
  | .vStr _ => 0

/-- Oracles for the external libraries used by the engine: the `hashlib`
digests (as functions from the input string to the lowercase hex digest)
and the `secrets.SystemRandom` source (as abstract sample streams indexed
by draw position, plus an abstract permutation for `shuffle`). -/
structure Env where
  sha256 : String → String
  sha512 : String → String
  md5 : String → String
  gaussStd : Nat → ℚ
  uniStd : Nat → ℚ
  choice : Nat → List String → String
  shuffleOf : List Value → List Value

/-- The `options` mapping of a column configuration, with the default used
by each `options.get(...)` call in the source. -/
structure Options where
  algorithm : String
  mask_char : String
  preserve_length : Bool
  pfx : String
  bin_size : Int
  granularity : String
  kParam : Nat
  epsilon : ℚ
  substList : Option (List String)
  typeKey : Option String
  range? : Option ℚ
  percentage : ℚ
  non_negative : Bool
deriving DecidableEq, Repr

/-- All `options.get` defaults from `anonymize_dataframe` and the method
implementations. -/
def defaultOptions : Options :=
  ⟨"sha256", "*", true, "ID", 10, "month", 5, 1, none, none, none, 10, false⟩

/-- A column's configured method: either a bare method-name string or a
`{method, options}` object (a missing `method` key defaults to `"hash"`). -/
inductive MSpec where
  | bare : String → MSpec
  | full : Option String → Options → MSpec
deriving DecidableEq, Repr

/-- Resolution of a `MSpec` to the method name string
(`config.get("method", "hash")`). -/
def methodOf : MSpec → String
  | .bare m => m
  | .full m? _ => m?.getD "hash"

/-- Resolution of a `MSpec` to its options (`config.get("options", {})`). -/
def optionsOf : MSpec → Options
  | .bare _ => defaultOptions
  | .full _ o => o

/-- Python `s * n` string repetition. -/
def strRepeat (m : String) (n : Nat) : String := String.join (List.replicate n m)

/-- `DataAnonymizer._generate_secure_hash`: salt-concatenate then dispatch
on the algorithm name; unknown algorithms raise `ValueError`. -/
def generate_secure_hash (e : Env) (salt : String) (value : String)
    (algorithm : String) : Except String String :=
  let input_str := value ++ salt
  if algorithm = "sha256" then .ok (e.sha256 input_str)
  else if algorithm = "sha512" then .ok (e.sha512 input_str)
  else if algorithm = "md5" then .ok (e.md5 input_str)
  else .error ("Unsupported hash algorithm: " ++ algorithm)

/-- `DataAnonymizer.hash_value`. -/
def hash_value (e : Env) (salt : String) (value : String)
    (algorithm : String) : Except String String :=
  generate_secure_hash e salt value algorithm

/-- `DataAnonymizer.mask_value`. -/
def mask_value (v : Value) (mask_char : String) (preserve_length : Bool) :
    String :=
  let s := strOfValue v
  let n := s.data.length
  if preserve_length then strRepeat mask_char n
  else if n ≤ 2 then strRepeat mask_char n
  else String.mk (s.data.take 1) ++ strRepeat mask_char (n - 2) ++
    String.mk (s.data.drop (n - 1))

/-- `DataAnonymizer.pseudonymize_value`: prefix + first 8 hex chars of the
salted sha256 digest. -/
def pseudonymize_value (e : Env) (salt : String) (v : Value) (pfx : String) :
    String :=
  let hash_val := e.sha256 (strOfValue v ++ salt)
  pfx ++ "_" ++ String.mk (hash_val.data.take 8)

/-- `DataAnonymizer.generalize_numeric`: non-numeric values are returned as
`str(value)`; numeric values are truncated with `int(value)` and binned
with Python floor division (`//`).  A zero bin size raises
`ZeroDivisionError`. -/
def generalize_numeric (v : Value) (bin_size : Int) : Except String Value :=
  match v with
  | .vStr s => .ok (.vStr s)
  | v =>
    if bin_size = 0 then .error "integer division or modulo by zero"
    else
      let num_value := truncVal v
      let bin_start := (Int.fdiv num_value bin_size) * bin_size
      .ok (.vStr (toString bin_start ++ "-" ++
        toString (bin_start + bin_size - 1)))

/-- Splitting helper mirroring Python `str.split(sep)` for a one-character
separator: the first field and the list of remaining fields. -/
def splitAux (sep : Char) : List Char → List Char × List (List Char)
  | [] => ([], [])
  | c :: cs =>
    let r := splitAux sep cs
    if c = sep then ([], r.1 :: r.2) else (c :: r.1, r.2)

/-- Python `str.split(sep)` for a one-character separator (always returns a
nonempty list of fields). -/
def splitOnChar (sep : Char) (cs : List Char) : List (List Char) :=
  (splitAux sep cs).1 :: (splitAux sep cs).2

/-- A calendar date as produced by a successful `datetime.strptime` (the
time-of-day part of the ISO datetime format is validated but discarded:
only year and month are used by `generalize_date`). -/
structure DateT where
  year : Nat
  month : Nat
  day : Nat
deriving DecidableEq, Repr

/-- Numeric value of an all-digit field. -/
def digitsVal (cs : List Char) : Nat :=
  cs.foldl (fun a c => 10 * a + (c.toNat - 48)) 0

/-- A 1-or-2 digit field with value in `[lo, hi]` (the CPython `_strptime`
regexes for `%m`, `%d`, `%H`, `%M`, `%S` all have this shape). -/
def fieldNum2 (lo hi : Nat) (cs : List Char) : Option Nat :=
  if (cs.length = 1 ∨ cs.length = 2) ∧ cs.all Char.isDigit ∧
      lo ≤ digitsVal cs ∧ digitsVal cs ≤ hi then some (digitsVal cs) else none

/-- The `%Y` field: exactly four digits; `datetime` additionally requires
`year >= 1` (`MINYEAR`). -/
def fieldYear (cs : List Char) : Option Nat :=
  if cs.length = 4 ∧ cs.all Char.isDigit ∧ 1 ≤ digitsVal cs then
    some (digitsVal cs) else none

/-- Day count of a month, with Gregorian leap years, as enforced by the
`datetime` constructor. -/
def daysInMonth (y m : Nat) : Nat :=
  if m = 2 then
    (if y % 4 = 0 ∧ (y % 100 ≠ 0 ∨ y % 400 = 0) then 29 else 28)
  else if m = 4 ∨ m = 6 ∨ m = 9 ∨ m = 11 then 30
  else 31

/-- The `datetime(y, m, d)` construction: month and day fields already
passed the regex range check; the constructor further rejects days beyond
the month length. -/
def mkDate (y m d : Nat) : Option DateT :=
  if d ≤ daysInMonth y m then some ⟨y, m, d⟩ else none

/-- `datetime.strptime(value, "%Y-%m-%d")`. -/
def parseYMD (cs : List Char) : Option DateT :=
  match splitOnChar '-' cs with
  | [yf, mf, df] =>
    (fieldYear yf).bind fun y =>
    (fieldNum2 1 12 mf).bind fun m =>
    (fieldNum2 1 31 df).bind fun d => mkDate y m d
  | _ => none

/-- `datetime.strptime(value, "%m/%d/%Y")`. -/
def parseMDY (cs : List Char) : Option DateT :=
  match splitOnChar '/' cs with
  | [mf, df, yf] =>
    (fieldNum2 1 12 mf).bind fun m =>
    (fieldNum2 1 31 df).bind fun d =>
    (fieldYear yf).bind fun y => mkDate y m d
  | _ => none

/-- `datetime.strptime(value, "%d/%m/%Y")`. -/
def parseDMY (cs : List Char) : Option DateT :=
  match splitOnChar '/' cs with
  | [df, mf, yf] =>
    (fieldNum2 1 31 df).bind fun d =>
    (fieldNum2 1 12 mf).bind fun m =>
    (fieldYear yf).bind fun y => mkDate y m d
  | _ => none

/-- `datetime.strptime(value, "%Y-%m-%d %H:%M:%S")`: the date part as in
`%Y-%m-%d`, one space, and a clock time that is validated then discarded. -/
def parseYMDHMS (cs : List Char) : Option DateT :=
  match splitOnChar ' ' cs with
  | [dp, tp] =>
    match splitOnChar ':' tp with
    | [hf, minf, sf] =>
      (fieldNum2 0 23 hf).bind fun _ =>
      (fieldNum2 0 59 minf).bind fun _ =>
      (fieldNum2 0 59 sf).bind fun _ => parseYMD dp
    | _ => none
  | _ => none

/-- The format loop of `generalize_date`, in the order the source tries
the formats: `["%Y-%m-%d", "%m/%d/%Y", "%d/%m/%Y", "%Y-%m-%d %H:%M:%S"]`. -/
def tryFormatsCode (cs : List Char) : Option DateT :=
  match parseYMD cs with
  | some d => some d
  | none =>
    match parseMDY cs with
    | some d => some d
    | none =>
      match parseDMY cs with
      | some d => some d
      | none => parseYMDHMS cs

/-- Modelled from the spec sentence of claim C9 (for comparison with the
source order): try ISO date, then ISO datetime, then US `MM/DD/YYYY`, then
EU `DD/MM/YYYY`, taking the first that parses. -/
def tryFormatsClaim (cs : List Char) : Option DateT :=
  match parseYMD cs with
  | some d => some d
  | none =>
    match parseYMDHMS cs with
    | some d => some d
    | none =>
      match parseMDY cs with
      | some d => some d
      | none => parseDMY cs

/-- Zero-padding of the month as in the f-string `{date_obj.month:02d}`. -/
def pad2 (n : Nat) : String :=
  if n < 10 then "0" ++ toString n else toString n

/-- The granularity reduction at the end of `generalize_date` (the final
`else` branch returns `str(value)`, i.e. the original string). -/
def applyGranularity (d : DateT) (granularity : String) (orig : String) :
    String :=
  if granularity = "year" then toString d.year
  else if granularity = "month" then toString d.year ++ "-" ++ pad2 d.month
  else if granularity = "quarter" then
    toString d.year ++ "-Q" ++ toString ((d.month - 1) / 3 + 1)
  else orig

/-- `DataAnonymizer.generalize_date`.  A parse failure returns the input
string unchanged; non-string values (the modelled `Value` scalars carry no
`datetime` objects) fall to the `str(value)` branch. -/
def generalize_date (v : Value) (granularity : String) : Value :=
  match v with
  | .vStr s =>
    match tryFormatsCode s.data with
    | none => .vStr s
    | some d => .vStr (applyGranularity d granularity s)
  | v => .vStr (strOfValue v)

/-- Python `sep in s` / split-at-first-separator: `none` when the
separator does not occur, otherwise the pieces before and after its first
occurrence (`str.split(sep, 1)`). -/
def breakAtChar (sep : Char) : List Char → Option (List Char × List Char)
  | [] => none
  | c :: cs =>
    if c = sep then some ([], cs)
    else (breakAtChar sep cs).map (fun p => (c :: p.1, p.2))

/-- `DataAnonymizer.anonymize_email`: local part replaced by
`user + hash[:8]`; domains outside the fixed allow-list get their non-TLD
labels replaced by `company + hash[:6]`. -/
def anonymize_email (e : Env) (salt : String) (v : Value) : Value :=
  match v with
  | .vStr email =>
    match breakAtChar '@' email.data with
    | none => .vStr email
    | some (localPart, domainPart) =>
      let local_str := String.mk localPart
      let domain0 := String.mk domainPart
      let hash_local := e.sha256 (local_str ++ salt)
      let anon_local := "user" ++ String.mk (hash_local.data.take 8)
      let domain1 :=
        if domain0 = "gmail.com" ∨ domain0 = "yahoo.com" ∨
            domain0 = "outlook.com" then domain0
        else
          let domain_parts := splitOnChar '.' domainPart
          if 2 ≤ domain_parts.length then
            let tld := String.mk (domain_parts.getLastD [])
            let hash_domain := e.sha256 (domain0 ++ salt)
            "company" ++ String.mk (hash_domain.data.take 6) ++ "." ++ tld
          else domain0
      .vStr (anon_local ++ "@" ++ domain1)
  | v => .vStr (strOfValue v)

/-- First-error effectful map: the semantics of `Series.apply` when the
applied function can raise (the first raising cell aborts the whole
column computation, before anything is assigned back). -/
def mapE (f : α → Except String β) : List α → Except String (List β)
  | [] => .ok []
  | a :: as =>
    match f a with
    | .error msg => .error msg
    | .ok b =>
      match mapE f as with
      | .error msg => .error msg
      | .ok bs => .ok (b :: bs)

/-- Indexed variant of `mapE`, used where each cell consumes one fresh
random sample. -/
def mapIdxE (f : Nat → α → Except String β) (i : Nat) :
    List α → Except String (List β)
  | [] => .ok []
  | a :: as =>
    match f i a with
    | .error msg => .error msg
    | .ok b =>
      match mapIdxE f (i + 1) as with
      | .error msg => .error msg
      | .ok bs => .ok (b :: bs)

/-- Hex value of one character, as accepted by `int(x, 16)`. -/
def hexVal? (c : Char) : Option Nat :=
  if c.isDigit then some (c.toNat - 48)
  else if 97 ≤ c.toNat ∧ c.toNat ≤ 102 then some (c.toNat - 87)
  else if 65 ≤ c.toNat ∧ c.toNat ≤ 70 then some (c.toNat - 55)
  else none

/-- `int(s, 16)` on a character-list slice: fails on the empty slice and on
non-hex characters (Python raises `ValueError` in both cases). -/
def hexListVal : List Char → Option Nat
  | [] => none
  | cs => cs.foldl (fun a? c => a?.bind fun a => (hexVal? c).map fun v =>
      16 * a + v) (some 0)

/-- One derived digit of `anonymize_phone`:
`str(int(hash_val[2*j : 2*j+2], 16) % 10)`. -/
def hexPairDigit (hv : List Char) (j : Nat) : Except String Char :=
  match hexListVal ((hv.drop (2 * j)).take 2) with
  | some v => .ok (Nat.digitChar (v % 10))
  | none => .error "invalid literal for int with base 16"

/-- The format-preserving substitution loop of `anonymize_phone`: walk the
original characters, replacing the next digit character by the next fake
digit while fake digits remain. -/
def substDigits : List Char → List Char → List Char
  | [], _ => []
  | c :: cs, fs =>
    if c.isDigit then
      match fs with
      | f :: fs2 => f :: substDigits cs fs2
      | [] => c :: substDigits cs []
    else c :: substDigits cs fs

/-- `DataAnonymizer.anonymize_phone`.  With at least 7 digit characters the
derived fake digits are substituted position by position; the derivation
reads 2-character slices of the 64-character digest, so inputs with more
than 32 digits reach the empty slice and raise `ValueError`. -/
def anonymize_phone (e : Env) (salt : String) (v : Value) :
    Except String Value :=
  match v with
  | .vStr phone =>
    let pc := phone.data
    let digits := pc.filter Char.isDigit
    if 7 ≤ digits.length then
      let hv := (e.sha256 (phone ++ salt)).data
      match mapE (fun j => hexPairDigit hv j) (List.range digits.length) with
      | .error msg => .error msg
      | .ok fake =>
        .ok (.vStr (String.mk (substDigits pc (fake.take digits.length))))
    else .ok (.vStr phone)
  | v => .ok (.vStr (strOfValue v))

/-- The anchored prefix match `re.match(r"\d{3}-\d{2}-\d{4}", ssn)`:
matches any string that *begins* with the dashed SSN shape. -/
def matchDashedSSN (cs : List Char) : Bool :=
  match cs with
  | a :: b :: c :: s1 :: d :: f :: s2 :: g :: h :: i :: j :: _ =>
    a.isDigit && b.isDigit && c.isDigit && (s1 == '-') &&
    d.isDigit && f.isDigit && (s2 == '-') &&
    g.isDigit && h.isDigit && i.isDigit && j.isDigit
  | _ => false

/-- The anchored prefix match `re.match(r"\d{9}", ssn)`: matches any string
that *begins* with nine digit characters. -/
def match9Digits (cs : List Char) : Bool :=
  match cs with
  | a :: b :: c :: d :: f :: g :: h :: i :: j :: _ =>
    a.isDigit && b.isDigit && c.isDigit && d.isDigit && f.isDigit &&
    g.isDigit && h.isDigit && i.isDigit && j.isDigit
  | _ => false

/-- The 9 derived SSN digits: `str(ord(c) % 10)` over the digest characters,
then slices `[:3]`, `[3:5]`, `[5:9]`. -/
def ssnDigits (e : Env) (salt : String) (ssn : String) : List Char :=
  ((e.sha256 (ssn ++ salt)).data.map (fun c => Nat.digitChar (c.toNat % 10))).take 9

/-- `DataAnonymizer.anonymize_ssn`. -/
def anonymize_ssn (e : Env) (salt : String) (v : Value) : Value :=
  match v with
  | .vStr ssn =>
    let nh := ssnDigits e salt ssn
    let p3 := nh.take 3
    let p2 := (nh.drop 3).take 2
    let p4 := (nh.drop 5).take 4
    let fake_ssn := String.mk p3 ++ "-" ++ String.mk p2 ++ "-" ++ String.mk p4
    if matchDashedSSN ssn.data then .vStr fake_ssn
    else if match9Digits ssn.data then .vStr (String.mk (p3 ++ p2 ++ p4))
    else .vStr fake_ssn
  | v => .vStr (strOfValue v)

/-- The suppression sentinel of `k_anonymity_suppress`. -/
def suppressedV : Value := .vStr "[SUPPRESSED]"

/-- `DataAnonymizer.k_anonymity_suppress`: iterate over the distinct values
of the column (`value_counts`), and `Series.replace` each value whose count
is below `k` by the sentinel. -/
def k_anonymity_suppress (col : List Value) (k : Nat) : List Value :=
  col.dedup.foldl
    (fun acc v =>
      if col.count v < k then
        acc.map (fun x => if x = v then suppressedV else x)
      else acc)
    col

/-- `DataAnonymizer.differential_privacy_noise` for one cell, given the
raw standard Gaussian sample `z` drawn for this cell (`gauss(0, scale)`
is `scale * z`; `sensitivity = 1.0`, `scale = sensitivity / epsilon`).
Non-numeric values are returned before the scale is computed, so only
numeric cells can raise `ZeroDivisionError` at `epsilon = 0`; integer
inputs pass through `int(...)`, i.e. truncation toward zero. -/
def differential_privacy_noise (z : ℚ) (v : Value) (epsilon : ℚ) :
    Except String Value :=
  match v with
  | .vInt n =>
    if epsilon = 0 then .error "float division by zero"
    else .ok (.vInt (truncRat ((n : ℚ) + 1 / epsilon * z)))
  | .vFloat q =>
    if epsilon = 0 then .error "float division by zero"
    else .ok (.vFloat (q + 1 / epsilon * z))
  | v => .ok v

/-- The fixed category word lists of `DataAnonymizer.substitution_lists`. -/
def substitution_lists (category : String) : List String :=
  if category = "names" then
    ["John Doe", "Jane Smith", "Robert Johnson", "Emily Davis",
     "Michael Brown", "Sarah Wilson", "David Miller", "Lisa Garcia",
     "Chris Martinez", "Anna Taylor"]
  else if category = "companies" then
    ["Acme Corp", "Beta Inc", "Gamma LLC", "Delta Ltd", "Alpha Systems",
     "Omega Solutions", "Phoenix Group", "Titan Industries", "Nova Corp",
     "Prime Tech"]
  else if category = "cities" then
    ["Springfield", "Franklin", "Georgetown", "Madison", "Riverside",
     "Arlington", "Fairview", "Greenville", "Oakland", "Clayton"]
  else if category = "domains" then
    ["example.com", "testdomain.org", "sample.net", "placeholder.co",
     "anonymous.info", "generic.com", "standard.org", "default.net"]
  else if category = "countries" then
    ["Country A", "Country B", "Country C", "Country D", "Country E"]
  else []

/-- Membership test mirroring `data_type in self.substitution_lists`. -/
def isSubstCategory (category : String) : Bool :=
  category == "names" || category == "companies" || category == "cities" ||
  category == "domains" || category == "countries"

/-- `DataAnonymizer.substitute_value` for one cell (`i` indexes the random
draw).  An *empty* configured list is falsy in Python, so it falls through
to the category branch. -/
def substitute_value (e : Env) (i : Nat) (logic_details : Options) : String :=
  match logic_details.substList with
  | some (x :: xs) => e.choice i (x :: xs)
  | _ =>
    let data_type := logic_details.typeKey.getD "generic"
    if isSubstCategory data_type then
      e.choice i (substitution_lists data_type)
    else "[REDACTED]"

/-- `DataAnonymizer.shuffle_column`: the secure RNG permutes the column
values in place. -/
def shuffle_column (e : Env) (col : List Value) : List Value := e.shuffleOf col

/-- `DataAnonymizer.perturb_value` for one cell, given the raw standard
uniform sample `u` and Gaussian sample `g` drawn for this cell. -/
def perturb_value (u g : ℚ) (v : Value) (logic_details : Options) : Value :=
  match v with
  | .vStr s => .vStr s
  | v =>
    let q : ℚ := match v with
      | .vInt n => (n : ℚ)
      | .vFloat x => x
      | .vStr _ => 0
    let perturbation_type := logic_details.typeKey.getD "uniform"
    let perturbation_range := logic_details.range?.getD (|q| * (1 / 10))
    let noise :=
      if perturbation_type = "uniform" then perturbation_range * u
      else if perturbation_type = "gaussian" then perturbation_range * g
      else if perturbation_type = "percentage" then
        logic_details.percentage / 100 * u * q
      else perturbation_range * u
    let result0 := q + noise
    let result := if logic_details.non_negative ∧ result0 < 0 then |result0|
      else result0
    match v with
    | .vInt _ => .vInt (truncRat result)
    | _ => .vFloat result

/-- A table (pandas `DataFrame`): the ordered list of columns, each a name
paired with its list of cell values (all of the same length in a
well-formed table). -/
abbrev Table : Type := List (String × List Value)

/-- A sheet's column configuration (`masking_config[sheet]`), in dict
insertion order. -/
abbrev Cfg : Type := List (String × MSpec)

/-- The names of a table's columns, in order (`df.columns`). -/
def colNames (t : Table) : List String := t.map Prod.fst

/-- `df[c]`: the values of column `c` (the first match; well-formed tables
have distinct column names). -/
def getCol : Table → String → Option (List Value)
  | [], _ => none
  | (c, vs) :: rest, c0 => if c = c0 then some vs else getCol rest c0

/-- `df[c] = vs`: replace the values of an existing column in place. -/
def setCol (t : Table) (c0 : String) (vs : List Value) : Table :=
  t.map (fun p => if p.1 = c0 then (c0, vs) else p)

/-- `df.drop(columns=[c])`. -/
def dropCol (t : Table) (c0 : String) : Table :=
  t.filter (fun p => p.1 ≠ c0)

/-- Spec lookup in a sheet configuration (`masking_config.items()` pairs). -/
def lookupSpec : Cfg → String → Option MSpec
  | [], _ => none
  | (c, sp) :: rest, c0 => if c = c0 then some sp else lookupSpec rest c0

/-- The outcome of applying one configured method to one column: new
values written back, or the column dropped (`remove`). -/
inductive MethodResult where
  | newVals : List Value → MethodResult
  | removeCol : MethodResult
deriving DecidableEq, Repr

/-- The method dispatch of `anonymize_dataframe`: the `if/elif` chain over
the method name, applied to the full value list of one column.  Unknown
method names fall through to default hashing. -/
def runMethod (e : Env) (salt : String) (method : String) (o : Options)
    (vs : List Value) : Except String MethodResult :=
  if method = "hash" then
    (mapE (fun v => hash_value e salt (strOfValue v) o.algorithm) vs).map
      (fun l => .newVals (l.map Value.vStr))
  else if method = "mask" then
    .ok (.newVals (vs.map (fun v =>
      .vStr (mask_value v o.mask_char o.preserve_length))))
  else if method = "pseudonymize" then
    .ok (.newVals (vs.map (fun v => .vStr (pseudonymize_value e salt v o.pfx))))
  else if method = "generalize_numeric" then
    (mapE (fun v => generalize_numeric v o.bin_size) vs).map .newVals
  else if method = "generalize_date" then
    .ok (.newVals (vs.map (fun v => generalize_date v o.granularity)))
  else if method = "anonymize_email" then
    .ok (.newVals (vs.map (fun v => anonymize_email e salt v)))
  else if method = "anonymize_phone" then
    (mapE (fun v => anonymize_phone e salt v) vs).map .newVals
  else if method = "anonymize_ssn" then
    .ok (.newVals (vs.map (fun v => anonymize_ssn e salt v)))
  else if method = "k_anonymity" then
    .ok (.newVals (k_anonymity_suppress vs o.kParam))
  else if method = "differential_privacy" then
    (mapIdxE (fun i v => differential_privacy_noise (e.gaussStd i) v o.epsilon)
      0 vs).map .newVals
  else if method = "shuffle" then
    .ok (.newVals (shuffle_column e vs))
  else if method = "substitute" then
    .ok (.newVals ((List.range vs.length).map (fun i =>
      .vStr (substitute_value e i o))))
  else if method = "perturb" then
    .ok (.newVals (vs.mapIdx (fun i v =>
      perturb_value (e.uniStd i) (e.gaussStd i) v o)))
  else if method = "remove" then
    .ok .removeCol
  else
    (mapE (fun v => hash_value e salt (strOfValue v) "sha256") vs).map
      (fun l => .newVals (l.map Value.vStr))

/-- The log line printed by the `except` handler of `anonymize_dataframe`. -/
def errLine (col method msg : String) : String :=
  "Error processing column " ++ col ++ " with method " ++ method ++ ": " ++ msg

/-- One iteration of the `for col, config in masking_config.items()` loop:
skip absent columns; on success write back or drop the column; on error
log and leave the table untouched. -/
def dispatchStep (e : Env) (salt : String) :
    Table × List String → String × MSpec → Table × List String
  | (t, log), (col, sp) =>
    match getCol t col with
    | none => (t, log)
    | some vs =>
      match runMethod e salt (methodOf sp) (optionsOf sp) vs with
      | .ok (.newVals vs2) => (setCol t col vs2, log)
      | .ok .removeCol => (dropCol t col, log)
      | .error msg => (t, log ++ [errLine col (methodOf sp) msg])

/-- `DataAnonymizer.anonymize_dataframe`: fold the dispatch step over the
configured columns, also collecting the error log. -/
def anonymize_dataframe (e : Env) (salt : String) (t : Table) (cfg : Cfg) :
    Table × List String :=
  cfg.foldl (dispatchStep e salt) (t, [])

/-- `DataAnonymizer.__init__`: `self.salt = salt or "default_salt"` (note
the falsy empty string also picks the default). -/
def mkAnonSalt (saltArg : Option String) : String :=
  match saltArg with
  | none => "default_salt"
  | some s => if s = "" then "default_salt" else s

/-- The salt of the anonymizer constructed by `run_anonymization_job`
(`DataAnonymizer()` with no argument). -/
def jobSalt : String := mkAnonSalt none

/-- Per-sheet configuration lookup `masking_config.get(sheet_name, {})`. -/
def cfgFor (mcfg : List (String × Cfg)) (sheet : String) : Cfg :=
  (lookupSheet mcfg sheet).getD []
where
  lookupSheet : List (String × Cfg) → String → Option Cfg
    | [], _ => none
    | (n, c) :: rest, n0 => if n = n0 then some c else lookupSheet rest n0

/-- The dataset transformation core of `run_anonymization_job`: every
loaded sheet is anonymized with its sheet configuration (file loading and
saving are external collaborators outside the engine model). -/
def run_anonymization_job (e : Env) (sheets : List (String × Table))
    (mcfg : List (String × Cfg)) : List (String × Table) :=
  sheets.map (fun p => (p.1, (anonymize_dataframe e jobSalt p.2
    (cfgFor mcfg p.1)).1))

/-- The pointwise effect of the replacement loop of `k_anonymity_suppress`
after the distinct values in `done` have been processed. -/
def karoMark (col : List Value) (k : Nat) (done : List Value) (x : Value) :
    Value :=
  if col.count x < k ∧ x ∈ done then suppressedV else x

lemma karoMark_congr (col : List Value) (k : Nat) (d1 d2 : List Value)
    (h : ∀ x, x ∈ d1 ↔ x ∈ d2) (x : Value) :
    karoMark col k d1 x = karoMark col k d2 x := by
  unfold karoMark
  by_cases hx : col.count x < k ∧ x ∈ d1
  · rw [if_pos hx, if_pos ⟨hx.1, (h x).mp hx.2⟩]
  · rw [if_neg hx, if_neg (fun hc => hx ⟨hc.1, (h x).mpr hc.2⟩)]

lemma karoMark_step_pos (col : List Value) (k : Nat) (done : List Value)
    (v : Value) (hv : col.count v < k) (x : Value) :
    (if karoMark col k done x = v then suppressedV
      else karoMark col k done x) = karoMark col k (v :: done) x := by
  unfold karoMark
  by_cases h1 : col.count x < k ∧ x ∈ done
  · have hc2 : col.count x < k ∧ x ∈ v :: done :=
      ⟨h1.1, List.mem_cons_of_mem _ h1.2⟩
    rw [if_pos h1, if_pos hc2]
    split_ifs <;> rfl
  · rw [if_neg h1]
    by_cases hxv : x = v
    · subst hxv
      have hc2 : col.count x < k ∧ x ∈ x :: done :=
        ⟨hv, List.mem_cons_self _ _⟩
      rw [if_pos rfl, if_pos hc2]
    · rw [if_neg hxv]
      refine (if_neg (fun hc => ?_)).symm
      rcases List.mem_cons.mp hc.2 with h | h
      · exact hxv h
      · exact h1 ⟨hc.1, h⟩

lemma karoMark_step_neg (col : List Value) (k : Nat) (done : List Value)
    (v : Value) (hv : ¬ col.count v < k) (x : Value) :
    karoMark col k done x = karoMark col k (v :: done) x := by
  unfold karoMark
  by_cases h1 : col.count x < k ∧ x ∈ done
  · have hc2 : col.count x < k ∧ x ∈ v :: done :=
      ⟨h1.1, List.mem_cons_of_mem _ h1.2⟩
    rw [if_pos h1, if_pos hc2]
  · rw [if_neg h1]
    refine (if_neg (fun hc => ?_)).symm
    rcases List.mem_cons.mp hc.2 with h | h
    · subst h; exact hv hc.1
    · exact h1 ⟨hc.1, h⟩

lemma karo_fold (col : List Value) (k : Nat) :
    ∀ (vs done : List Value),
    vs.foldl
      (fun acc v =>
        if col.count v < k then
          acc.map (fun x => if x = v then suppressedV else x)
        else acc)
      (col.map (karoMark col k done)) =
    col.map (karoMark col k (done ++ vs)) := by
  intro vs
  induction vs with
  | nil => intro done; simp
  | cons v vs ih =>
    intro done
    have hmem : ∀ y : Value, y ∈ v :: done ++ vs ↔ y ∈ done ++ v :: vs := by
      intro y
      simp only [List.mem_cons, List.mem_append]
      tauto
    by_cases hv : col.count v < k
    · have hstep : (col.map (karoMark col k done)).map
          (fun x => if x = v then suppressedV else x) =
          col.map (karoMark col k (v :: done)) := by
        rw [List.map_map]
        exact List.map_congr_left
          (fun x _ => karoMark_step_pos col k done v hv x)
      simp only [List.foldl_cons, if_pos hv, hstep, ih (v :: done)]
      exact List.map_congr_left
        (fun x _ => karoMark_congr col k _ _ hmem x)
    · have hstep : col.map (karoMark col k done) =
          col.map (karoMark col k (v :: done)) :=
        List.map_congr_left (fun x _ => karoMark_step_neg col k done v hv x)
      simp only [List.foldl_cons, if_neg hv, hstep, ih (v :: done)]
      exact List.map_congr_left
        (fun x _ => karoMark_congr col k _ _ hmem x)

/-- The replacement loop of `k_anonymity_suppress` is the pointwise map
that suppresses exactly the values of below-`k` frequency. -/
lemma k_anonymity_eq_map (col : List Value) (k : Nat) :
    k_anonymity_suppress col k =
      col.map (fun v => if col.count v < k then suppressedV else v) := by
  unfold k_anonymity_suppress
  have h0 : col.map (karoMark col k []) = col := by
    have : col.map (karoMark col k []) = col.map id :=
      List.map_congr_left (fun x _ => by simp [karoMark])
    simpa using this
  have hfold := karo_fold col k col.dedup []
  rw [List.nil_append, h0] at hfold
  rw [hfold]
  refine List.map_congr_left (fun x hx => ?_)
  unfold karoMark
  by_cases hc : col.count x < k
  · have hc2 : col.count x < k ∧ x ∈ col.dedup :=
      ⟨hc, (List.mem_dedup).mpr hx⟩
    rw [if_pos hc2, if_pos hc]
  · rw [if_neg (fun h => hc h.1), if_neg hc]

/-- Claim C3: in `k_anonymity_suppress(col, k)` every position whose
original value occurs fewer than `k` times in `col` holds the sentinel
`"[SUPPRESSED]"`, every position whose original value occurs at least `k`
times holds the original value unchanged, every retained non-sentinel
value has original frequency at least `k`, and
`k_anonymity_suppress(["A","A","A","B","B","C"], 3)` gives
`["A","A","A","[SUPPRESSED]","[SUPPRESSED]","[SUPPRESSED]"]`. -/
theorem C3_k_anonymity_invariant (col : List Value) (k : Nat) :
    (∀ i : Nat, (k_anonymity_suppress col k)[i]? =
      (col[i]?).map (fun v => if col.count v < k then suppressedV else v)) ∧
    (∀ i : Nat, ∀ w : Value, (k_anonymity_suppress col k)[i]? = some w →
      w ≠ suppressedV → col[i]? = some w ∧ k ≤ col.count w) ∧
    k_anonymity_suppress
      [Value.vStr "A", Value.vStr "A", Value.vStr "A",
       Value.vStr "B", Value.vStr "B", Value.vStr "C"] 3 =
      [Value.vStr "A", Value.vStr "A", Value.vStr "A",
       suppressedV, suppressedV, suppressedV] := by
  refine ⟨?_, ?_, by decide⟩
  · intro i
    rw [k_anonymity_eq_map, List.getElem?_map]
  · intro i w hw hns
    rw [k_anonymity_eq_map, List.getElem?_map] at hw
    cases hv : col[i]? with
    | none => rw [hv] at hw; simp at hw
    | some v =>
      rw [hv] at hw
      simp only [Option.map_some'] at hw
      by_cases hc : col.count v < k
      · rw [if_pos hc] at hw
        exact absurd (Option.some_injective _ hw).symm hns
      · rw [if_neg hc] at hw
        have hvw : v = w := Option.some_injective _ hw
        subst hvw
        exact ⟨rfl, Nat.le_of_not_lt hc⟩

/-- Witness for C3: the theorem applied to the concrete column of the
spec's round-trip scenario, position 3 and retained value `"A"`. -/
theorem C3_k_anonymity_invariant_witness :
    (k_anonymity_suppress
      [Value.vStr "A", Value.vStr "A", Value.vStr "A",
       Value.vStr "B", Value.vStr "B", Value.vStr "C"] 3)[3]? =
      some suppressedV ∧
    [Value.vStr "A", Value.vStr "A", Value.vStr "A",
     Value.vStr "B", Value.vStr "B", Value.vStr "C"][0]? =
      some (Value.vStr "A") ∧
    3 ≤ [Value.vStr "A", Value.vStr "A", Value.vStr "A",
     Value.vStr "B", Value.vStr "B", Value.vStr "C"].count (Value.vStr "A") := by
  have h := C3_k_anonymity_invariant
    [Value.vStr "A", Value.vStr "A", Value.vStr "A",
     Value.vStr "B", Value.vStr "B", Value.vStr "C"] 3
  refine ⟨?_, ?_, ?_⟩
  · rw [h.2.2]; decide
  · exact (h.2.1 0 (Value.vStr "A") (by rw [h.2.2]; decide) (by decide)).1
  · exact (h.2.1 0 (Value.vStr "A") (by rw [h.2.2]; decide) (by decide)).2

/-- Counterexample for claim C4: the code computes `int(value)` (truncation
toward zero) before binning, so for `v = 9.5, b = 10` the bin is `"0-9"`
and the claimed containment `v <= e` fails (`9.5 > 9`), and for
`v = -0.5, b = 10` the bin is again `"0-9"` while the claimed start
`floor(v/b)*b = -10` differs from the actual start `0`. -/
theorem C4_counterexample :
    generalize_numeric (Value.vFloat (19/2)) 10 = .ok (.vStr "0-9") ∧
    ¬ ((19 : ℚ)/2 ≤ 9) ∧
    generalize_numeric (Value.vFloat (-(1/2))) 10 = .ok (.vStr "0-9") ∧
    Int.floor ((-(1/2) : ℚ)/10) * 10 = -10 ∧ (-10 : Int) ≠ 0 := by
  have ht1 : truncRat ((19:ℚ)/2) = 9 := by
    unfold truncRat
    rw [if_neg (by norm_num)]
    norm_num [Rat.floor_def']
  have ht2 : truncRat (-(1/2) : ℚ) = 0 := by
    unfold truncRat
    rw [if_pos (by norm_num)]
    norm_num [Rat.ceil]
  refine ⟨?_, by norm_num, ?_, ?_, by decide⟩
  · simp only [generalize_numeric, truncVal, ht1]
    rfl
  · simp only [generalize_numeric, truncVal, ht2]
    rfl
  · have hfl : Int.floor ((-(1/2) : ℚ)/10) = -1 := by
      rw [Int.floor_eq_iff]
      constructor <;> norm_num
    rw [hfl]
    norm_num

/-- Claim C4 (amended): for a positive bin size `b`, `generalize_numeric`
returns `"s-e"` where `s = (int(v) // b) * b` — truncation toward zero
followed by floor division — and `e = s + b - 1`, so `e - s + 1 = b`; the
containment `s <= v <= e` holds for the truncated value `int(v)` (hence
for every integer input), but not necessarily for a fractional input;
non-numeric input is returned unchanged as a string. -/
theorem C4_bin_containment_amended (n : Int) (q : ℚ) (s : String) (b : Int)
    (hb : 0 < b) :
    (generalize_numeric (.vInt n) b =
      .ok (.vStr (toString (n.fdiv b * b) ++ "-" ++
        toString (n.fdiv b * b + b - 1))) ∧
      n.fdiv b * b ≤ n ∧ n ≤ n.fdiv b * b + b - 1 ∧
      (n.fdiv b * b + b - 1) - n.fdiv b * b + 1 = b) ∧
    (generalize_numeric (.vFloat q) b =
      .ok (.vStr (toString ((truncRat q).fdiv b * b) ++ "-" ++
        toString ((truncRat q).fdiv b * b + b - 1))) ∧
      (truncRat q).fdiv b * b ≤ truncRat q ∧
      truncRat q ≤ (truncRat q).fdiv b * b + b - 1) ∧
    generalize_numeric (.vStr s) b = .ok (.vStr s) := by
  have key : ∀ m : Int, m.fdiv b * b ≤ m ∧ m ≤ m.fdiv b * b + b - 1 := by
    intro m
    rw [Int.fdiv_eq_ediv m hb.le]
    refine ⟨Int.ediv_mul_le m (ne_of_gt hb), ?_⟩
    have h2 := Int.lt_ediv_add_one_mul_self m hb
    rw [add_mul, one_mul] at h2
    omega
  refine ⟨⟨?_, (key n).1, (key n).2, by ring⟩,
    ⟨?_, (key (truncRat q)).1, (key (truncRat q)).2⟩, rfl⟩
  · simp only [generalize_numeric, truncVal]
    rw [if_neg (ne_of_gt hb)]
  · simp only [generalize_numeric, truncVal]
    rw [if_neg (ne_of_gt hb)]

/-- Witness for the amended C4 at `v = 25, b = 10` (the test vector of the
repository) and a non-numeric input. -/
theorem C4_bin_containment_amended_witness :
    (0 : Int) < 10 ∧
    generalize_numeric (.vInt 25) 10 = .ok (.vStr "20-29") ∧
    generalize_numeric (.vStr "abc") 10 = .ok (.vStr "abc") := by
  have h := C4_bin_containment_amended 25 0 "abc" 10 (by norm_num)
  refine ⟨by norm_num, ?_, h.2.2⟩
  rw [h.1.1]
  rfl

/-- Counterexample for claim C7: for an integer input the code applies
Python `int()` — truncation toward zero — to the noised value, not
rounding to the nearest integer: with standard sample `z = 0.7` and
`epsilon = 1` the input `0` stays `0` although the nearest integer to
`0.7` is `1`; moreover `epsilon = 0` raises `ZeroDivisionError` instead of
adding scaled noise. -/
theorem C7_counterexample :
    differential_privacy_noise (7/10) (.vInt 0) 1 = .ok (.vInt 0) ∧
    round ((0 : ℚ) + 1/1 * (7/10)) = 1 ∧ (0 : Int) ≠ 1 ∧
    differential_privacy_noise (7/10) (.vInt 0) 0 =
      .error "float division by zero" := by
  have ht : truncRat ((0 : Int) + 1 / 1 * (7/10) : ℚ) = 0 := by
    unfold truncRat
    rw [if_neg (by norm_num)]
    norm_num [Rat.floor_def']
  refine ⟨?_, ?_, by decide, ?_⟩
  · simp only [differential_privacy_noise]
    rw [if_neg (by norm_num : (1 : ℚ) ≠ 0), ht]
  · rw [round_eq]
    have : ((0 : ℚ) + 1/1 * (7/10) + 1/2) = 6/5 := by norm_num
    rw [this]
    have hfl : Int.floor ((6 : ℚ)/5) = 1 := by
      rw [Int.floor_eq_iff]
      constructor <;> norm_num
    exact hfl
  · simp only [differential_privacy_noise, if_true]

/-- Claim C7 (amended): for nonzero `epsilon`, `differential_privacy_noise`
adds the zero-mean sample scaled by `1/epsilon` (`scale = sensitivity /
epsilon` with `sensitivity = 1`); float inputs get exactly `v + noise`,
integer inputs get `int(v + noise)` — truncation toward zero, not
rounding to nearest; non-numeric inputs are returned unchanged; at
`epsilon = 0` a numeric input raises `ZeroDivisionError`. -/
theorem C7_noise_amended (z : ℚ) (n : Int) (q : ℚ) (s : String) (eps : ℚ)
    (he : eps ≠ 0) :
    differential_privacy_noise z (.vInt n) eps =
      .ok (.vInt (truncRat ((n : ℚ) + 1 / eps * z))) ∧
    differential_privacy_noise z (.vFloat q) eps =
      .ok (.vFloat (q + 1 / eps * z)) ∧
    differential_privacy_noise z (.vStr s) eps = .ok (.vStr s) ∧
    differential_privacy_noise z (.vInt n) 0 =
      .error "float division by zero" := by
  refine ⟨?_, ?_, rfl, ?_⟩
  · simp only [differential_privacy_noise]
    rw [if_neg he]
  · simp only [differential_privacy_noise]
    rw [if_neg he]
  · simp only [differential_privacy_noise, if_true]

/-- Witness for the amended C7 at `z = 0.7`, `epsilon = 2`. -/
theorem C7_noise_amended_witness :
    (2 : ℚ) ≠ 0 ∧
    differential_privacy_noise (7/10) (.vFloat (1/2)) 2 =
      .ok (.vFloat (1/2 + 1/2 * (7/10))) ∧
    differential_privacy_noise (7/10) (.vStr "x") 2 = .ok (.vStr "x") := by
  have h := C7_noise_amended (7/10) 5 (1/2) "x" 2 (by norm_num)
  exact ⟨by norm_num, h.2.1, h.2.2.1⟩

/-- A concrete oracle environment for closed evaluations: every digest is
the 64-character string of zeros (a well-formed lowercase-hex digest
value), the random streams are constant, and `shuffle` is the identity
permutation. -/
def envC : Env :=
  ⟨fun _ => String.mk (List.replicate 64 '0'),
   fun _ => String.mk (List.replicate 64 '0'),
   fun _ => String.mk (List.replicate 64 '0'),
   fun _ => 0, fun _ => 0, fun _ l => l.headD "", id⟩

/-- Counterexample for claim C8: `re.match` anchors only at the start of
the string, so the ten-digit input `"1234567890"` — which is *not* nine
raw digits, and per the claim should come back in the dashed
`DDD-DD-DDDD` form — is returned as nine raw digits (`"888888888"` under
the all-zeros digest), because the regex `\d{9}` prefix-matches it. -/
theorem C8_counterexample :
    anonymize_ssn envC "default_salt" (.vStr "1234567890") =
      .vStr "888888888" ∧
    "1234567890".length ≠ 9 ∧
    matchDashedSSN "1234567890".data = false ∧
    ¬ ('-' ∈ "888888888".data) ∧
    String.mk ((ssnDigits envC "default_salt" "1234567890").take 3) ++ "-" ++
      String.mk (((ssnDigits envC "default_salt" "1234567890").drop 3).take 2)
      ++ "-" ++
      String.mk (((ssnDigits envC "default_salt" "1234567890").drop 5).take 4)
      = "888-88-8888" := by
  exact ⟨by decide, by decide, by decide, by decide, by decide⟩

lemma digitChar_isDigit (n : Nat) (h : n < 10) :
    (Nat.digitChar n).isDigit = true := by
  interval_cases n <;> decide

lemma ssnDigits_spec (e : Env) (salt s : String)
    (hlen : ∀ x, (e.sha256 x).length = 64) :
    (ssnDigits e salt s).length = 9 ∧
    ∀ c ∈ ssnDigits e salt s, c.isDigit = true := by
  constructor
  · have hl : (e.sha256 (s ++ salt)).data.length = 64 := hlen (s ++ salt)
    simp [ssnDigits, List.length_take, hl]
  · intro c hc
    have hc2 := List.mem_of_mem_take hc
    rcases List.mem_map.mp hc2 with ⟨x, _, hx⟩
    rw [← hx]
    exact digitChar_isDigit _ (Nat.mod_lt _ (by norm_num))

/-- Claim C8 (amended): `anonymize_ssn` derives nine digits from the
salted digest and formats them as `DDD-DD-DDDD` whenever the input
*begins with* the dashed pattern (anchored prefix match, not a full
match), as nine raw digits whenever the input does not begin with the
dashed pattern but *begins with* nine digits, and in the dashed form in
every other case. -/
theorem C8_ssn_amended (e : Env) (salt s : String)
    (hlen : ∀ x, (e.sha256 x).length = 64) :
    ((ssnDigits e salt s).length = 9 ∧
      ∀ c ∈ ssnDigits e salt s, c.isDigit = true) ∧
    (matchDashedSSN s.data = true ∨ match9Digits s.data = false →
      anonymize_ssn e salt (.vStr s) =
        .vStr (String.mk ((ssnDigits e salt s).take 3) ++ "-" ++
          String.mk (((ssnDigits e salt s).drop 3).take 2) ++ "-" ++
          String.mk (((ssnDigits e salt s).drop 5).take 4))) ∧
    (matchDashedSSN s.data = false → match9Digits s.data = true →
      anonymize_ssn e salt (.vStr s) =
        .vStr (String.mk ((ssnDigits e salt s).take 3 ++
          ((ssnDigits e salt s).drop 3).take 2 ++
          ((ssnDigits e salt s).drop 5).take 4)) ∧
      ((ssnDigits e salt s).take 3 ++ ((ssnDigits e salt s).drop 3).take 2 ++
        ((ssnDigits e salt s).drop 5).take 4).length = 9) := by
  refine ⟨ssnDigits_spec e salt s hlen, ?_, ?_⟩
  · intro h
    rcases h with h | h
    · simp only [anonymize_ssn, h, if_true]
    · by_cases hd : matchDashedSSN s.data = true
      · simp only [anonymize_ssn, hd, if_true]
      · simp only [anonymize_ssn, Bool.not_eq_true] at hd ⊢
        simp only [hd, h]
        rfl
  · intro hd h9
    have hlen9 := (ssnDigits_spec e salt s hlen).1
    constructor
    · simp only [anonymize_ssn, hd, h9]
      rfl
    · simp only [List.length_append, List.length_take, List.length_drop,
        hlen9]
      decide

/-- Witness for the amended C8: both prefix-match branches at concrete
inputs under the all-zeros digest. -/
theorem C8_ssn_amended_witness :
    matchDashedSSN "123-45-6789".data = true ∧
    anonymize_ssn envC "default_salt" (.vStr "123-45-6789") =
      .vStr "888-88-8888" ∧
    matchDashedSSN "123456789".data = false ∧
    match9Digits "123456789".data = true ∧
    anonymize_ssn envC "default_salt" (.vStr "123456789") =
      .vStr "888888888" := by
  have hlen : ∀ x, (envC.sha256 x).length = 64 := fun _ => rfl
  have h1 := C8_ssn_amended envC "default_salt" "123-45-6789" hlen
  have h2 := C8_ssn_amended envC "default_salt" "123456789" hlen
  refine ⟨by decide, ?_, by decide, by decide, ?_⟩
  · rw [h1.2.1 (Or.inl (by decide))]
    decide
  · rw [(h2.2.2 (by decide) (by decide)).1]
    decide

lemma mapE_ok_length {α β : Type} (f : α → Except String β) :
    ∀ (l : List α) (l2 : List β), mapE f l = .ok l2 → l2.length = l.length := by
  intro l
  induction l with
  | nil =>
    intro l2 h
    simp only [mapE] at h
    cases h
    rfl
  | cons a as ih =>
    intro l2 h
    simp only [mapE] at h
    cases hf : f a with
    | error msg => rw [hf] at h; cases h
    | ok b =>
      rw [hf] at h
      cases hm : mapE f as with
      | error msg => rw [hm] at h; cases h
      | ok bs =>
        rw [hm] at h
        cases h
        simp [ih bs hm]

lemma mapE_ok_of_forall {α β : Type} (f : α → Except String β) :
    ∀ (l : List α), (∀ a ∈ l, ∃ b, f a = .ok b) →
      ∃ l2, mapE f l = .ok l2 := by
  intro l
  induction l with
  | nil => intro _; exact ⟨[], rfl⟩
  | cons a as ih =>
    intro h
    rcases h a (List.mem_cons_self _ _) with ⟨b, hb⟩
    rcases ih (fun x hx => h x (List.mem_cons_of_mem _ hx)) with ⟨bs, hbs⟩
    refine ⟨b :: bs, ?_⟩
    simp only [mapE, hb, hbs]

lemma mapE_ok_forall_mem {α β : Type} (f : α → Except String β)
    (p : β → Prop) (hp : ∀ a b, f a = .ok b → p b) :
    ∀ (l : List α) (l2 : List β), mapE f l = .ok l2 → ∀ b ∈ l2, p b := by
  intro l
  induction l with
  | nil =>
    intro l2 h
    simp only [mapE] at h
    cases h
    intro b hb
    cases hb
  | cons a as ih =>
    intro l2 h
    simp only [mapE] at h
    cases hf : f a with
    | error msg => rw [hf] at h; cases h
    | ok b =>
      rw [hf] at h
      cases hm : mapE f as with
      | error msg => rw [hm] at h; cases h
      | ok bs =>
        rw [hm] at h
        cases h
        intro x hx
        rcases List.mem_cons.mp hx with hx | hx
        · subst hx; exact hp a x hf
        · exact ih bs hm x hx

lemma hexListVal_isSome (cs : List Char) (hne : cs ≠ [])
    (hhex : ∀ c ∈ cs, (hexVal? c).isSome) : (hexListVal cs).isSome := by
  have haux : ∀ (ds : List Char) (a : Nat), (∀ c ∈ ds, (hexVal? c).isSome) →
      (ds.foldl (fun a? c => a?.bind fun a => (hexVal? c).map fun v =>
        16 * a + v) (some a)).isSome := by
    intro ds
    induction ds with
    | nil => intro a _; rfl
    | cons c ds ih =>
      intro a h
      rcases Option.isSome_iff_exists.mp
        (h c (List.mem_cons_self _ _)) with ⟨v, hv⟩
      rw [List.foldl_cons]
      have hstep : ((some a).bind fun a => (hexVal? c).map fun v =>
          16 * a + v) = some (16 * a + v) := by simp [hv]
      rw [hstep]
      exact ih (16 * a + v) (fun x hx => h x (List.mem_cons_of_mem _ hx))
  match cs, hne with
  | c :: cs2, _ => exact haux (c :: cs2) 0 hhex

lemma hexPairDigit_ok (hv : List Char) (j : Nat) (hlen : hv.length = 64)
    (hhex : ∀ c ∈ hv, (hexVal? c).isSome) (hj : j < 32) :
    ∃ d, hexPairDigit hv j = .ok d := by
  have hslice : ((hv.drop (2 * j)).take 2) ≠ [] := by
    have h1 : (hv.drop (2 * j)).length = 64 - 2 * j := by
      rw [List.length_drop, hlen]
    have h2 : ((hv.drop (2 * j)).take 2).length = 2 := by
      rw [List.length_take, h1]
      omega
    intro hempty
    rw [hempty] at h2
    cases h2
  have hmem : ∀ c ∈ (hv.drop (2 * j)).take 2, (hexVal? c).isSome :=
    fun c hc => hhex c (List.mem_of_mem_drop (List.mem_of_mem_take hc))
  rcases Option.isSome_iff_exists.mp
    (hexListVal_isSome _ hslice hmem) with ⟨v, hval⟩
  exact ⟨Nat.digitChar (v % 10), by simp only [hexPairDigit, hval]⟩

lemma hexPairDigit_isDigit (hv : List Char) (j : Nat) (d : Char)
    (h : hexPairDigit hv j = .ok d) : d.isDigit = true := by
  unfold hexPairDigit at h
  cases hval : hexListVal ((hv.drop (2 * j)).take 2) with
  | none => rw [hval] at h; cases h
  | some v =>
    rw [hval] at h
    cases h
    exact digitChar_isDigit _ (Nat.mod_lt _ (by norm_num))

lemma substDigits_length : ∀ (pc fs : List Char),
    (substDigits pc fs).length = pc.length := by
  intro pc
  induction pc with
  | nil => intro fs; rfl
  | cons c cs ih =>
    intro fs
    unfold substDigits
    by_cases hc : c.isDigit
    · rw [if_pos hc]
      cases fs with
      | nil => simp [ih]
      | cons f fs2 => simp [ih]
    · rw [if_neg hc]
      simp [ih]

lemma substDigits_nondigit : ∀ (pc fs : List Char) (i : Nat) (c : Char),
    pc[i]? = some c → c.isDigit = false →
    (substDigits pc fs)[i]? = some c := by
  intro pc
  induction pc with
  | nil => intro fs i c h _; simp at h
  | cons c0 cs ih =>
    intro fs i c h hnd
    unfold substDigits
    cases i with
    | zero =>
      simp only [List.getElem?_cons_zero, Option.some_inj] at h
      subst h
      rw [if_neg (by simp [hnd])]
      simp
    | succ i =>
      simp only [List.getElem?_cons_succ] at h
      by_cases hc0 : c0.isDigit
      · rw [if_pos hc0]
        cases fs with
        | nil => simpa using ih [] i c h hnd
        | cons f fs2 => simpa using ih fs2 i c h hnd
      · rw [if_neg hc0]
        simpa using ih fs i c h hnd

lemma substDigits_digit : ∀ (pc fs : List Char) (i : Nat) (c : Char),
    pc[i]? = some c → c.isDigit = true →
    (∀ f ∈ fs, f.isDigit = true) →
    ∃ d, (substDigits pc fs)[i]? = some d ∧ d.isDigit = true := by
  intro pc
  induction pc with
  | nil => intro fs i c h _ _; simp at h
  | cons c0 cs ih =>
    intro fs i c h hd hfs
    unfold substDigits
    cases i with
    | zero =>
      simp only [List.getElem?_cons_zero, Option.some_inj] at h
      subst h
      rw [if_pos hd]
      cases fs with
      | nil => exact ⟨c0, by simp, hd⟩
      | cons f fs2 => exact ⟨f, by simp, hfs f (List.mem_cons_self _ _)⟩
    | succ i =>
      simp only [List.getElem?_cons_succ] at h
      by_cases hc0 : c0.isDigit
      · rw [if_pos hc0]
        cases fs with
        | nil =>
          rcases ih [] i c h hd (by intro f hf; cases hf) with ⟨d, hd1, hd2⟩
          exact ⟨d, by simpa using hd1, hd2⟩
        | cons f fs2 =>
          rcases ih fs2 i c h hd
            (fun x hx => hfs x (List.mem_cons_of_mem _ hx)) with ⟨d, hd1, hd2⟩
          exact ⟨d, by simpa using hd1, hd2⟩
      · rw [if_neg hc0]
        rcases ih fs i c h hd hfs with ⟨d, hd1, hd2⟩
        exact ⟨d, by simpa using hd1, hd2⟩

/-- Counterexample for claim C5: the digest has 64 hex characters, so an
input with 33 digit characters (at least 7 digits, as the claim requires)
drives the slice `hash_val[64:66]` to the empty string and
`int("", 16)` raises `ValueError` — no format-preserving string is
returned at all. -/
theorem C5_counterexample :
    7 ≤ (("555555555555555555555555555555555" : String).data.filter
      Char.isDigit).length ∧
    anonymize_phone envC "default_salt"
      (.vStr "555555555555555555555555555555555") =
      .error "invalid literal for int with base 16" := by
  exact ⟨by decide, by rfl⟩

/-- Claim C5 (amended): for a phone string with at least 7 and at most 32
digit characters, `anonymize_phone` succeeds and returns a string of
identical length in which every non-digit character is identical at its
original position and every digit position carries a (digest-derived)
digit character; for fewer than 7 digit characters the input is returned
unchanged.  (Beyond 32 digits the digest slice is exhausted and the call
raises, see the counterexample.) -/
theorem C5_phone_format_amended (e : Env) (salt phone : String)
    (hlen : ∀ x, (e.sha256 x).length = 64)
    (hhex : ∀ x c, c ∈ (e.sha256 x).data → (hexVal? c).isSome) :
    (7 ≤ (phone.data.filter Char.isDigit).length →
     (phone.data.filter Char.isDigit).length ≤ 32 →
      ∃ res : String,
        anonymize_phone e salt (.vStr phone) = .ok (.vStr res) ∧
        res.data.length = phone.data.length ∧
        (∀ (i : Nat) (c : Char), phone.data[i]? = some c →
          c.isDigit = false → res.data[i]? = some c) ∧
        (∀ (i : Nat) (c : Char), phone.data[i]? = some c →
          c.isDigit = true →
          ∃ d : Char, res.data[i]? = some d ∧ d.isDigit = true)) ∧
    ((phone.data.filter Char.isDigit).length < 7 →
      anonymize_phone e salt (.vStr phone) = .ok (.vStr phone)) := by
  constructor
  · intro h7 h32
    have hlen2 : ((e.sha256 (phone ++ salt)).data).length = 64 :=
      hlen (phone ++ salt)
    have hok : ∀ j ∈ List.range (phone.data.filter Char.isDigit).length,
        ∃ d, hexPairDigit (e.sha256 (phone ++ salt)).data j = .ok d := by
      intro j hj
      have hjlt : j < 32 := Nat.lt_of_lt_of_le (List.mem_range.mp hj) h32
      exact hexPairDigit_ok _ j hlen2 (hhex (phone ++ salt)) hjlt
    rcases mapE_ok_of_forall _ _ hok with ⟨fake, hfake⟩
    have hflen : fake.length = (phone.data.filter Char.isDigit).length := by
      rw [mapE_ok_length _ _ fake hfake, List.length_range]
    have hfdig : ∀ f ∈ fake, f.isDigit = true :=
      mapE_ok_forall_mem _ _ (fun j d hd => hexPairDigit_isDigit _ j d hd)
        _ fake hfake
    refine ⟨String.mk (substDigits phone.data (fake.take
      (phone.data.filter Char.isDigit).length)), ?_, ?_, ?_, ?_⟩
    · simp only [anonymize_phone, if_pos h7, hfake]
    · show (substDigits phone.data _).length = phone.data.length
      exact substDigits_length _ _
    · intro i c hc hnd
      exact substDigits_nondigit _ _ i c hc hnd
    · intro i c hc hd
      refine substDigits_digit _ _ i c hc hd ?_
      intro f hf
      exact hfdig f (List.mem_of_mem_take hf)
  · intro hlt
    simp only [anonymize_phone, if_neg (Nat.not_le_of_lt hlt)]

/-- Witness for the amended C5: the format-preserving branch at the
round-trip phone `"(555) 123-4567"` and the pass-through branch at
`"123"`, under the all-zeros digest. -/
theorem C5_phone_format_amended_witness :
    (anonymize_phone envC "default_salt"
      (.vStr "(555) 123-4567")).isOk = true ∧
    anonymize_phone envC "default_salt" (.vStr "123") =
      .ok (.vStr "123") := by
  have hlen : ∀ x, (envC.sha256 x).length = 64 := fun _ => rfl
  have hhex : ∀ x c, c ∈ (envC.sha256 x).data → (hexVal? c).isSome := by
    intro x c hc
    have : c = '0' := List.eq_of_mem_replicate hc
    subst this
    rfl
  have h1 := C5_phone_format_amended envC "default_salt" "(555) 123-4567"
    hlen hhex
  have h2 := C5_phone_format_amended envC "default_salt" "123" hlen hhex
  constructor
  · rcases h1.1 (by decide) (by decide) with ⟨res, hres, _⟩
    rw [hres]
    rfl
  · exact h2.2 (by decide)

lemma splitAux_ne_nil (sep : Char) (cs : List Char) :
    splitOnChar sep cs ≠ [] := by
  simp [splitOnChar]

lemma mem_splitAux (sep : Char) : ∀ (cs : List Char) (c : Char), c ∈ cs →
    c = sep ∨ c ∈ (splitAux sep cs).1 ∨ ∃ p ∈ (splitAux sep cs).2, c ∈ p := by
  intro cs
  induction cs with
  | nil => intro c hc; cases hc
  | cons c0 cs ih =>
    intro c hc
    unfold splitAux
    rcases List.mem_cons.mp hc with hc0 | hcs
    · subst hc0
      by_cases hsep : c = sep
      · exact Or.inl hsep
      · rw [if_neg hsep]
        exact Or.inr (Or.inl (List.mem_cons_self _ _))
    · rcases ih c hcs with h | h | ⟨p, hp, hcp⟩
      · exact Or.inl h
      · by_cases hsep : c0 = sep
        · rw [if_pos hsep]
          exact Or.inr (Or.inr ⟨(splitAux sep cs).1,
            List.mem_cons_self _ _, h⟩)
        · rw [if_neg hsep]
          exact Or.inr (Or.inl (List.mem_cons_of_mem _ h))
      · by_cases hsep : c0 = sep
        · rw [if_pos hsep]
          exact Or.inr (Or.inr ⟨p, List.mem_cons_of_mem _ hp, hcp⟩)
        · rw [if_neg hsep]
          exact Or.inr (Or.inr ⟨p, hp, hcp⟩)

lemma splitAux_no_sep (sep : Char) : ∀ (cs : List Char), sep ∉ cs →
    splitAux sep cs = (cs, []) := by
  intro cs
  induction cs with
  | nil => intro _; rfl
  | cons c0 cs ih =>
    intro h
    unfold splitAux
    have hc0 : c0 ≠ sep := fun he => h (he ▸ List.mem_cons_self _ _)
    rw [if_neg hc0, ih (fun hm => h (List.mem_cons_of_mem _ hm))]

lemma splitOnChar_no_sep (sep : Char) (cs : List Char) (h : sep ∉ cs) :
    splitOnChar sep cs = [cs] := by
  unfold splitOnChar
  rw [splitAux_no_sep sep cs h]

lemma fieldNum2_some (lo hi : Nat) (f : List Char) (v : Nat)
    (h : fieldNum2 lo hi f = some v) :
    f.all Char.isDigit = true ∧ lo ≤ v ∧ v ≤ hi := by
  unfold fieldNum2 at h
  split_ifs at h with hc
  cases h
  exact ⟨hc.2.1, hc.2.2.1, hc.2.2.2⟩

lemma fieldYear_some (f : List Char) (v : Nat)
    (h : fieldYear f = some v) :
    f.all Char.isDigit = true ∧ 1 ≤ v := by
  unfold fieldYear at h
  split_ifs at h with hc
  cases h
  exact ⟨hc.2.1, hc.2.2⟩

lemma mkDate_some (y m d : Nat) (dt : DateT) (h : mkDate y m d = some dt) :
    dt = ⟨y, m, d⟩ := by
  unfold mkDate at h
  split_ifs at h
  cases h
  rfl

lemma parseMDY_split (cs : List Char) (d : DateT)
    (h : parseMDY cs = some d) :
    ∃ mf df yf, splitOnChar '/' cs = [mf, df, yf] ∧
      mf.all Char.isDigit = true ∧ df.all Char.isDigit = true ∧
      yf.all Char.isDigit = true ∧
      1 ≤ d.month ∧ d.month ≤ 12 := by
  unfold parseMDY at h
  split at h
  case _ mf df yf hsp =>
    cases hm : fieldNum2 1 12 mf with
    | none => rw [hm] at h; cases h
    | some m =>
      rw [hm] at h
      cases hd : fieldNum2 1 31 df with
      | none => rw [hd] at h; cases h
      | some dd =>
        rw [hd] at h
        cases hy : fieldYear yf with
        | none => rw [hy] at h; cases h
        | some y =>
          rw [hy] at h
          simp only [Option.some_bind] at h
          have hdt := mkDate_some _ _ _ _ h
          subst hdt
          exact ⟨mf, df, yf, hsp, (fieldNum2_some _ _ _ _ hm).1,
            (fieldNum2_some _ _ _ _ hd).1, (fieldYear_some _ _ hy).1,
            (fieldNum2_some _ _ _ _ hm).2.1, (fieldNum2_some _ _ _ _ hm).2.2⟩
  case _ => cases h

lemma parseDMY_split (cs : List Char) (d : DateT)
    (h : parseDMY cs = some d) :
    ∃ df mf yf, splitOnChar '/' cs = [df, mf, yf] ∧
      df.all Char.isDigit = true ∧ mf.all Char.isDigit = true ∧
      yf.all Char.isDigit = true ∧
      1 ≤ d.month ∧ d.month ≤ 12 := by
  unfold parseDMY at h
  split at h
  case _ df mf yf hsp =>
    cases hd : fieldNum2 1 31 df with
    | none => rw [hd] at h; cases h
    | some dd =>
      rw [hd] at h
      cases hm : fieldNum2 1 12 mf with
      | none => rw [hm] at h; cases h
      | some m =>
        rw [hm] at h
        cases hy : fieldYear yf with
        | none => rw [hy] at h; cases h
        | some y =>
          rw [hy] at h
          simp only [Option.some_bind] at h
          have hdt := mkDate_some _ _ _ _ h
          subst hdt
          exact ⟨df, mf, yf, hsp, (fieldNum2_some _ _ _ _ hd).1,
            (fieldNum2_some _ _ _ _ hm).1, (fieldYear_some _ _ hy).1,
            (fieldNum2_some _ _ _ _ hm).2.1, (fieldNum2_some _ _ _ _ hm).2.2⟩
  case _ => cases h

lemma no_space_of_slash_split (cs : List Char) (f1 f2 f3 : List Char)
    (hsp : splitOnChar '/' cs = [f1, f2, f3])
    (h1 : f1.all Char.isDigit = true) (h2 : f2.all Char.isDigit = true)
    (h3 : f3.all Char.isDigit = true) : ' ' ∉ cs := by
  intro hmem
  have hsp1 : (splitAux '/' cs).1 = f1 ∧ (splitAux '/' cs).2 = [f2, f3] := by
    unfold splitOnChar at hsp
    injection hsp with ha hb
    exact ⟨ha, hb⟩
  rcases mem_splitAux '/' cs ' ' hmem with h | h | ⟨p, hp, hcp⟩
  · cases h
  · rw [hsp1.1] at h
    have := List.all_eq_true.mp h1 ' ' h
    cases this
  · rw [hsp1.2] at hp
    rcases List.mem_cons.mp hp with hp | hp
    · subst hp
      have := List.all_eq_true.mp h2 ' ' hcp
      cases this
    · rcases List.mem_cons.mp hp with hp | hp
      · subst hp
        have := List.all_eq_true.mp h3 ' ' hcp
        cases this
      · cases hp

lemma parseYMDHMS_none_of_no_space (cs : List Char) (h : ' ' ∉ cs) :
    parseYMDHMS cs = none := by
  unfold parseYMDHMS
  rw [splitOnChar_no_sep ' ' cs h]

lemma parseYMDHMS_none_of_parseMDY (cs : List Char) (d : DateT)
    (h : parseMDY cs = some d) : parseYMDHMS cs = none := by
  rcases parseMDY_split cs d h with ⟨mf, df, yf, hsp, h1, h2, h3, _⟩
  exact parseYMDHMS_none_of_no_space cs
    (no_space_of_slash_split cs mf df yf hsp h1 h2 h3)

lemma parseYMDHMS_none_of_parseDMY (cs : List Char) (d : DateT)
    (h : parseDMY cs = some d) : parseYMDHMS cs = none := by
  rcases parseDMY_split cs d h with ⟨df, mf, yf, hsp, h1, h2, h3, _⟩
  exact parseYMDHMS_none_of_no_space cs
    (no_space_of_slash_split cs df mf yf hsp h1 h2 h3)

/-- The format order the source uses and the order claimed by the spec are
observationally equivalent: no string matches both the ISO datetime format
and one of the slash formats, so moving the ISO datetime trial from last
to second place never changes the first successful parse. -/
lemma tryFormats_eq (cs : List Char) :
    tryFormatsCode cs = tryFormatsClaim cs := by
  unfold tryFormatsCode tryFormatsClaim
  cases h1 : parseYMD cs with
  | some d => rfl
  | none =>
    cases h2 : parseMDY cs with
    | some d => rw [parseYMDHMS_none_of_parseMDY cs d h2]
    | none =>
      cases h3 : parseDMY cs with
      | some d => rw [parseYMDHMS_none_of_parseDMY cs d h3]
      | none =>
        cases h4 : parseYMDHMS cs with
        | some d => rfl
        | none => rfl

lemma parseYMD_month (cs : List Char) (d : DateT)
    (h : parseYMD cs = some d) : 1 ≤ d.month ∧ d.month ≤ 12 := by
  unfold parseYMD at h
  split at h
  case _ yf mf df hsp =>
    cases hy : fieldYear yf with
    | none => rw [hy] at h; cases h
    | some y =>
      rw [hy] at h
      cases hm : fieldNum2 1 12 mf with
      | none => rw [hm] at h; cases h
      | some m =>
        rw [hm] at h
        cases hd : fieldNum2 1 31 df with
        | none => rw [hd] at h; cases h
        | some dd =>
          rw [hd] at h
          simp only [Option.some_bind] at h
          have hdt := mkDate_some _ _ _ _ h
          subst hdt
          exact ⟨(fieldNum2_some _ _ _ _ hm).2.1,
            (fieldNum2_some _ _ _ _ hm).2.2⟩
  case _ => cases h

lemma parseYMDHMS_month (cs : List Char) (d : DateT)
    (h : parseYMDHMS cs = some d) : 1 ≤ d.month ∧ d.month ≤ 12 := by
  unfold parseYMDHMS at h
  split at h
  case _ dp tp hsp =>
    split at h
    case _ hf minf sf hsp2 =>
      cases hh : fieldNum2 0 23 hf with
      | none => rw [hh] at h; cases h
      | some hv =>
        rw [hh] at h
        cases hmin : fieldNum2 0 59 minf with
        | none => rw [hmin] at h; cases h
        | some mv =>
          rw [hmin] at h
          cases hs : fieldNum2 0 59 sf with
          | none => rw [hs] at h; cases h
          | some sv =>
            rw [hs] at h
            simp only [Option.some_bind] at h
            exact parseYMD_month dp d h
    case _ => cases h
  case _ => cases h

lemma tryFormatsCode_month (cs : List Char) (d : DateT)
    (h : tryFormatsCode cs = some d) : 1 ≤ d.month ∧ d.month ≤ 12 := by
  unfold tryFormatsCode at h
  cases h1 : parseYMD cs with
  | some d2 =>
    rw [h1] at h
    cases h
    exact parseYMD_month cs d h1
  | none =>
    rw [h1] at h
    cases h2 : parseMDY cs with
    | some d2 =>
      rw [h2] at h
      cases h
      exact (parseMDY_split cs d h2).elim
        (fun mf hm => hm.elim (fun df hd => hd.elim
          (fun yf hy => ⟨hy.2.2.2.2.1, hy.2.2.2.2.2⟩)))
    | none =>
      rw [h2] at h
      cases h3 : parseDMY cs with
      | some d2 =>
        rw [h3] at h
        cases h
        exact (parseDMY_split cs d h3).elim
          (fun df hm => hm.elim (fun mf hd => hd.elim
            (fun yf hy => ⟨hy.2.2.2.2.1, hy.2.2.2.2.2⟩)))
      | none =>
        rw [h3] at h
        exact parseYMDHMS_month cs d h

/-- Claim C9: `generalize_date` computes the first successful parse in the
claimed priority order ISO date, ISO datetime, US `MM/DD/YYYY`, EU
`DD/MM/YYYY` (equivalent to the source's trial order, which tries the ISO
datetime format last — no string matches both it and a slash format);
on parse failure the string is returned unchanged; on success the date is
reduced to the year, `year-month` (zero-padded), or `year-Qn` with
`n = ceil(month/3) = (month+2)/3`; in particular
`generalize_date("2023-05-15", "quarter") = "2023-Q2"`. -/
theorem C9_generalize_date (s : String) :
    (tryFormatsCode s.data = tryFormatsClaim s.data) ∧
    (tryFormatsClaim s.data = none →
      ∀ g, generalize_date (.vStr s) g = .vStr s) ∧
    (∀ d : DateT, tryFormatsClaim s.data = some d →
      generalize_date (.vStr s) "year" = .vStr (toString d.year) ∧
      generalize_date (.vStr s) "month" =
        .vStr (toString d.year ++ "-" ++ pad2 d.month) ∧
      generalize_date (.vStr s) "quarter" =
        .vStr (toString d.year ++ "-Q" ++ toString ((d.month + 2) / 3))) ∧
    generalize_date (.vStr "2023-05-15") "quarter" = .vStr "2023-Q2" := by
  refine ⟨tryFormats_eq s.data, ?_, ?_, by decide⟩
  · intro hn g
    rw [← tryFormats_eq] at hn
    simp only [generalize_date, hn]
  · intro d hd
    rw [← tryFormats_eq] at hd
    have hm := tryFormatsCode_month s.data d hd
    refine ⟨?_, ?_, ?_⟩
    · simp only [generalize_date, hd, applyGranularity, if_true]
    · simp only [generalize_date, hd, applyGranularity, if_true]
      rw [if_neg (by decide)]
    · simp only [generalize_date, hd, applyGranularity, if_true]
      have hq : (d.month - 1) / 3 + 1 = (d.month + 2) / 3 := by omega
      rw [hq, if_neg (by decide), if_neg (by decide)]

/-- Witness for C9: the theorem applied to the parse-success input
`"2023-05-15"` and the parse-failure input `"hello"`. -/
theorem C9_generalize_date_witness :
    tryFormatsClaim "2023-05-15".data = some ⟨2023, 5, 15⟩ ∧
    generalize_date (.vStr "2023-05-15") "year" = .vStr "2023" ∧
    generalize_date (.vStr "2023-05-15") "month" = .vStr "2023-05" ∧
    tryFormatsClaim "hello".data = none ∧
    generalize_date (.vStr "hello") "month" = .vStr "hello" := by
  have h1 := C9_generalize_date "2023-05-15"
  have h2 := C9_generalize_date "hello"
  have hp : tryFormatsClaim "2023-05-15".data = some ⟨2023, 5, 15⟩ := by
    decide
  have hn : tryFormatsClaim "hello".data = none := by decide
  refine ⟨hp, ?_, ?_, hn, h2.2.1 hn "month"⟩
  · rw [(h1.2.2.1 ⟨2023, 5, 15⟩ hp).1]
    rfl
  · rw [(h1.2.2.1 ⟨2023, 5, 15⟩ hp).2.1]
    rfl

/-- The per-column outcome of a full dispatcher run over a configuration
with distinct keys: an unconfigured column passes through, a configured
column is replaced by its method result, dropped by `remove`, or kept
unchanged when the method raises. -/
def colOutcome (e : Env) (salt : String) (cfg : Cfg)
    (p : String × List Value) : Option (String × List Value) :=
  match lookupSpec cfg p.1 with
  | none => some p
  | some sp =>
    match runMethod e salt (methodOf sp) (optionsOf sp) p.2 with
    | .ok (.newVals vs2) => some (p.1, vs2)
    | .ok .removeCol => none
    | .error _ => some p

/-- The log line (if any) a configuration entry contributes, evaluated
against the original table. -/
def logOutcome (e : Env) (salt : String) (t : Table)
    (pr : String × MSpec) : Option String :=
  match getCol t pr.1 with
  | none => none
  | some vs =>
    match runMethod e salt (methodOf pr.2) (optionsOf pr.2) vs with
    | .error msg => some (errLine pr.1 (methodOf pr.2) msg)
    | _ => none

lemma getCol_none_iff (t : Table) (c : String) :
    getCol t c = none ↔ c ∉ colNames t := by
  induction t with
  | nil => simp [getCol, colNames]
  | cons p rest ih =>
    by_cases hc : p.1 = c
    · subst hc
      simp [getCol, colNames]
    · have hc2 : ¬ c = p.1 := fun h => hc h.symm
      simp [getCol, colNames, hc, hc2, ih]

lemma getCol_mem_nodup (t : Table) (hnd : (colNames t).Nodup)
    (p : String × List Value) (hp : p ∈ t) : getCol t p.1 = some p.2 := by
  induction t with
  | nil => cases hp
  | cons q rest ih =>
    rcases List.mem_cons.mp hp with hq | hq
    · subst hq
      simp [getCol]
    · have hne : q.1 ≠ p.1 := by
        intro he
        have : p.1 ∈ colNames rest :=
          List.mem_map.mpr ⟨p, hq, rfl⟩
        rw [← he] at this
        exact (List.nodup_cons.mp hnd).1 this
      simp only [getCol, if_neg hne]
      exact ih (List.nodup_cons.mp hnd).2 hq

lemma getCol_setCol_ne (t : Table) (c0 c : String) (vs : List Value)
    (hne : c ≠ c0) : getCol (setCol t c0 vs) c = getCol t c := by
  induction t with
  | nil => rfl
  | cons p rest ih =>
    simp only [setCol, List.map_cons]
    by_cases hp : p.1 = c0
    · rw [if_pos hp]
      simp only [getCol]
      have h1 : ¬ c0 = c := fun h => hne h.symm
      have h2 : ¬ p.1 = c := by rw [hp]; exact h1
      rw [if_neg h1, if_neg h2]
      exact ih
    · rw [if_neg hp]
      simp only [getCol]
      by_cases hpc : p.1 = c
      · rw [if_pos hpc, if_pos hpc]
      · rw [if_neg hpc, if_neg hpc]
        exact ih

lemma getCol_dropCol_ne (t : Table) (c0 c : String)
    (hne : c ≠ c0) : getCol (dropCol t c0) c = getCol t c := by
  induction t with
  | nil => rfl
  | cons p rest ih =>
    simp only [dropCol, List.filter_cons]
    by_cases hp : p.1 = c0
    · have hd : (decide (p.1 ≠ c0)) = false := by simp [hp]
      simp only [hd, Bool.false_eq_true, if_false]
      have h2 : ¬ p.1 = c := by rw [hp]; exact fun h => hne h.symm
      have h3 : getCol (p :: rest) c = getCol rest c := by
        simp only [getCol, if_neg h2]
      rw [h3]
      exact ih
    · have hd : (decide (p.1 ≠ c0)) = true := by simp [hp]
      simp only [hd, if_true]
      simp only [getCol]
      by_cases hpc : p.1 = c
      · rw [if_pos hpc, if_pos hpc]
      · rw [if_neg hpc, if_neg hpc]
        exact ih

lemma colNames_setCol (t : Table) (c0 : String) (vs : List Value) :
    colNames (setCol t c0 vs) = colNames t := by
  induction t with
  | nil => rfl
  | cons p rest ih =>
    simp only [setCol, List.map_cons, colNames] at ih ⊢
    by_cases hp : p.1 = c0
    · rw [if_pos hp, hp]
      simpa using ih
    · rw [if_neg hp]
      simpa using ih

lemma nodup_dropCol (t : Table) (c0 : String)
    (h : (colNames t).Nodup) : (colNames (dropCol t c0)).Nodup :=
  h.sublist ((List.filter_sublist t).map Prod.fst)

lemma lookupSpec_none_of_not_mem (cfg : Cfg) (c : String)
    (h : c ∉ cfg.map Prod.fst) : lookupSpec cfg c = none := by
  induction cfg with
  | nil => rfl
  | cons pr cfg ih =>
    have h1 : pr.1 ≠ c := by
      intro he
      exact h (he ▸ List.mem_map.mpr ⟨pr, List.mem_cons_self _ _, rfl⟩)
    simp only [lookupSpec, if_neg h1]
    exact ih (fun hm => h (List.mem_cons_of_mem _ hm))

lemma filterMap_filter {α β : Type} (q : α → Bool) (f : α → Option β)
    (l : List α) :
    (l.filter q).filterMap f =
      l.filterMap (fun a => if q a = true then f a else none) := by
  induction l with
  | nil => rfl
  | cons a l ih =>
    simp only [List.filter_cons, List.filterMap_cons]
    by_cases hq : q a = true
    · rw [if_pos hq, if_pos hq, List.filterMap_cons, ih]
    · rw [if_neg hq, if_neg hq, ih]

/-- Characterization of one full dispatcher run (distinct configured
columns, distinct table columns): the output table is the independent
per-column outcome map, and the log collects exactly the failing
columns' lines, evaluated against the input table. -/
lemma dispatch_fold (e : Env) (salt : String) :
    ∀ (cfg : Cfg) (t : Table) (log0 : List String),
      (cfg.map Prod.fst).Nodup → (colNames t).Nodup →
      cfg.foldl (dispatchStep e salt) (t, log0) =
        (t.filterMap (colOutcome e salt cfg),
         log0 ++ cfg.filterMap (logOutcome e salt t)) := by
  intro cfg
  induction cfg with
  | nil =>
    intro t log0 _ _
    have h1 : t.filterMap (colOutcome e salt []) = t := by
      have : ∀ p ∈ t, colOutcome e salt [] p = some p := by
        intro p _
        rfl
      rw [List.filterMap_congr this]
      exact List.filterMap_some t
    simp [h1]
  | cons pr cfg ih =>
    rcases pr with ⟨c0, sp0⟩
    intro t log0 hk hc
    have hk2 : (cfg.map Prod.fst).Nodup := (List.nodup_cons.mp hk).2
    have hk0 : c0 ∉ cfg.map Prod.fst := (List.nodup_cons.mp hk).1
    have hlk : lookupSpec cfg c0 = none := lookupSpec_none_of_not_mem cfg c0 hk0
    rw [List.foldl_cons]
    cases hg : getCol t c0 with
    | none =>
      have hnc : c0 ∉ colNames t := (getCol_none_iff t c0).mp hg
      have hstep : dispatchStep e salt (t, log0) (c0, sp0) = (t, log0) := by
        simp [dispatchStep, hg]
      rw [hstep, ih t log0 hk2 hc]
      have htab : t.filterMap (colOutcome e salt cfg) =
          t.filterMap (colOutcome e salt ((c0, sp0) :: cfg)) := by
        refine List.filterMap_congr ?_
        intro p hp
        have hne : c0 ≠ p.1 := by
          intro he
          exact hnc (he ▸ List.mem_map.mpr ⟨p, hp, rfl⟩)
        simp [colOutcome, lookupSpec, if_neg hne]
      have hlog : logOutcome e salt t (c0, sp0) = none := by
        simp [logOutcome, hg]
      rw [htab, List.filterMap_cons, hlog]
    | some vs0 =>
      have hmm : ∀ p ∈ t, p.1 = c0 → p.2 = vs0 := by
        intro p hp he
        have := getCol_mem_nodup t hc p hp
        rw [he, hg] at this
        exact (Option.some_inj.mp this).symm
      cases hr : runMethod e salt (methodOf sp0) (optionsOf sp0) vs0 with
      | ok mres =>
        have hlog : logOutcome e salt t (c0, sp0) = none := by
          simp [logOutcome, hg, hr]
        cases mres with
        | newVals vs2 =>
          have hstep : dispatchStep e salt (t, log0) (c0, sp0) =
              (setCol t c0 vs2, log0) := by
            simp [dispatchStep, hg, hr]
          have hc2 : (colNames (setCol t c0 vs2)).Nodup := by
            rw [colNames_setCol]
            exact hc
          rw [hstep, ih (setCol t c0 vs2) log0 hk2 hc2]
          have htab : (setCol t c0 vs2).filterMap (colOutcome e salt cfg) =
              t.filterMap (colOutcome e salt ((c0, sp0) :: cfg)) := by
            unfold setCol
            rw [List.filterMap_map]
            refine List.filterMap_congr ?_
            intro p hp
            show colOutcome e salt cfg
              (if p.1 = c0 then (c0, vs2) else p) = _
            by_cases hpe : p.1 = c0
            · rw [if_pos hpe]
              have h2 : colOutcome e salt cfg (c0, vs2) = some (c0, vs2) := by
                simp [colOutcome, hlk]
              rw [h2]
              have h3 : colOutcome e salt ((c0, sp0) :: cfg) p =
                  some (p.1, vs2) := by
                simp only [colOutcome, lookupSpec, if_pos hpe.symm,
                  hmm p hp hpe, hr]
              rw [h3, hpe]
            · rw [if_neg hpe]
              have hne : c0 ≠ p.1 := fun he => hpe he.symm
              simp [colOutcome, lookupSpec, if_neg hne]
          have hlogc : cfg.filterMap
              (logOutcome e salt (setCol t c0 vs2)) =
              cfg.filterMap (logOutcome e salt t) := by
            refine List.filterMap_congr ?_
            intro pr2 hpr2
            have hne : pr2.1 ≠ c0 := by
              intro he
              exact hk0 (he ▸ List.mem_map.mpr ⟨pr2, hpr2, rfl⟩)
            simp [logOutcome, getCol_setCol_ne t c0 pr2.1 vs2 hne]
          rw [htab, hlogc, List.filterMap_cons, hlog]
        | removeCol =>
          have hstep : dispatchStep e salt (t, log0) (c0, sp0) =
              (dropCol t c0, log0) := by
            simp [dispatchStep, hg, hr]
          have hc2 : (colNames (dropCol t c0)).Nodup := nodup_dropCol t c0 hc
          rw [hstep, ih (dropCol t c0) log0 hk2 hc2]
          have htab : (dropCol t c0).filterMap (colOutcome e salt cfg) =
              t.filterMap (colOutcome e salt ((c0, sp0) :: cfg)) := by
            unfold dropCol
            rw [filterMap_filter]
            refine List.filterMap_congr ?_
            intro p hp
            by_cases hpe : p.1 = c0
            · have hq : (decide (p.1 ≠ c0)) = false := by simp [hpe]
              rw [hq]
              simp only [Bool.false_eq_true, if_false]
              have h3 : colOutcome e salt ((c0, sp0) :: cfg) p = none := by
                simp only [colOutcome, lookupSpec, if_pos hpe.symm,
                  hmm p hp hpe, hr]
              rw [h3]
            · have hq : (decide (p.1 ≠ c0)) = true := by simp [hpe]
              rw [hq]
              simp only [if_true]
              have hne : c0 ≠ p.1 := fun he => hpe he.symm
              simp [colOutcome, lookupSpec, if_neg hne]
          have hlogc : cfg.filterMap (logOutcome e salt (dropCol t c0)) =
              cfg.filterMap (logOutcome e salt t) := by
            refine List.filterMap_congr ?_
            intro pr2 hpr2
            have hne : pr2.1 ≠ c0 := by
              intro he
              exact hk0 (he ▸ List.mem_map.mpr ⟨pr2, hpr2, rfl⟩)
            simp [logOutcome, getCol_dropCol_ne t c0 pr2.1 hne]
          rw [htab, hlogc, List.filterMap_cons, hlog]
      | error msg =>
        have hstep : dispatchStep e salt (t, log0) (c0, sp0) =
            (t, log0 ++ [errLine c0 (methodOf sp0) msg]) := by
          simp [dispatchStep, hg, hr]
        rw [hstep, ih t (log0 ++ [errLine c0 (methodOf sp0) msg]) hk2 hc]
        have htab : t.filterMap (colOutcome e salt cfg) =
            t.filterMap (colOutcome e salt ((c0, sp0) :: cfg)) := by
          refine List.filterMap_congr ?_
          intro p hp
          by_cases hpe : p.1 = c0
          · have h2 : colOutcome e salt cfg p = some p := by
              rw [show colOutcome e salt cfg p =
                (match lookupSpec cfg p.1 with
                 | none => some p
                 | some sp =>
                   match runMethod e salt (methodOf sp) (optionsOf sp) p.2 with
                   | .ok (.newVals vs2) => some (p.1, vs2)
                   | .ok .removeCol => none
                   | .error _ => some p) from rfl, hpe, hlk]
            have h3 : colOutcome e salt ((c0, sp0) :: cfg) p = some p := by
              simp only [colOutcome, lookupSpec, if_pos hpe.symm,
                hmm p hp hpe, hr]
            rw [h2, h3]
          · have hne : c0 ≠ p.1 := fun he => hpe he.symm
            simp [colOutcome, lookupSpec, if_neg hne]
        have hlog : logOutcome e salt t (c0, sp0) =
            some (errLine c0 (methodOf sp0) msg) := by
          simp [logOutcome, hg, hr]
        rw [htab, List.filterMap_cons, hlog, List.append_assoc]
        rfl

/-- `anonymize_dataframe` in characterized form. -/
lemma anonymize_dataframe_eq (e : Env) (salt : String) (t : Table)
    (cfg : Cfg) (hk : (cfg.map Prod.fst).Nodup)
    (hc : (colNames t).Nodup) :
    anonymize_dataframe e salt t cfg =
      (t.filterMap (colOutcome e salt cfg),
       cfg.filterMap (logOutcome e salt t)) := by
  unfold anonymize_dataframe
  rw [dispatch_fold e salt cfg t [] hk hc]
  rfl

lemma exceptMap_ok_inv {α β : Type} (r : Except String α) (g : α → β)
    (b : β) (h : r.map g = .ok b) : ∃ a, r = .ok a ∧ g a = b := by
  cases r with
  | error msg => simp [Except.map] at h
  | ok a =>
    refine ⟨a, rfl, ?_⟩
    simpa [Except.map] using h

lemma mapIdxE_ok_length {α β : Type} (f : Nat → α → Except String β) :
    ∀ (l : List α) (i : Nat) (l2 : List β),
      mapIdxE f i l = .ok l2 → l2.length = l.length := by
  intro l
  induction l with
  | nil =>
    intro i l2 h
    simp only [mapIdxE] at h
    cases h
    rfl
  | cons a as ih =>
    intro i l2 h
    simp only [mapIdxE] at h
    cases hf : f i a with
    | error msg => rw [hf] at h; cases h
    | ok b =>
      rw [hf] at h
      cases hm : mapIdxE f (i + 1) as with
      | error msg => rw [hm] at h; cases h
      | ok bs =>
        rw [hm] at h
        cases h
        simp [ih (i + 1) bs hm]

/-- `remove` is the unique method producing a column drop. -/
lemma runMethod_removeCol_iff (e : Env) (salt : String) (m : String)
    (o : Options) (vs : List Value) :
    runMethod e salt m o vs = .ok .removeCol ↔ m = "remove" := by
  constructor
  · intro h
    by_cases hm1 : m = "hash"
    · subst hm1
      simp only [runMethod, String.reduceEq, reduceIte] at h
      rcases exceptMap_ok_inv _ _ _ h with ⟨l, _, hg⟩
      cases hg
    by_cases hm2 : m = "mask"
    · subst hm2
      simp only [runMethod, String.reduceEq, reduceIte] at h
      cases h
    by_cases hm3 : m = "pseudonymize"
    · subst hm3
      simp only [runMethod, String.reduceEq, reduceIte] at h
      cases h
    by_cases hm4 : m = "generalize_numeric"
    · subst hm4
      simp only [runMethod, String.reduceEq, reduceIte] at h
      rcases exceptMap_ok_inv _ _ _ h with ⟨l, _, hg⟩
      cases hg
    by_cases hm5 : m = "generalize_date"
    · subst hm5
      simp only [runMethod, String.reduceEq, reduceIte] at h
      cases h
    by_cases hm6 : m = "anonymize_email"
    · subst hm6
      simp only [runMethod, String.reduceEq, reduceIte] at h
      cases h
    by_cases hm7 : m = "anonymize_phone"
    · subst hm7
      simp only [runMethod, String.reduceEq, reduceIte] at h
      rcases exceptMap_ok_inv _ _ _ h with ⟨l, _, hg⟩
      cases hg
    by_cases hm8 : m = "anonymize_ssn"
    · subst hm8
      simp only [runMethod, String.reduceEq, reduceIte] at h
      cases h
    by_cases hm9 : m = "k_anonymity"
    · subst hm9
      simp only [runMethod, String.reduceEq, reduceIte] at h
      cases h
    by_cases hm10 : m = "differential_privacy"
    · subst hm10
      simp only [runMethod, String.reduceEq, reduceIte] at h
      rcases exceptMap_ok_inv _ _ _ h with ⟨l, _, hg⟩
      cases hg
    by_cases hm11 : m = "shuffle"
    · subst hm11
      simp only [runMethod, String.reduceEq, reduceIte] at h
      cases h
    by_cases hm12 : m = "substitute"
    · subst hm12
      simp only [runMethod, String.reduceEq, reduceIte] at h
      cases h
    by_cases hm13 : m = "perturb"
    · subst hm13
      simp only [runMethod, String.reduceEq, reduceIte] at h
      cases h
    by_cases hm14 : m = "remove"
    · exact hm14
    exfalso
    unfold runMethod at h
    rw [if_neg hm1, if_neg hm2, if_neg hm3, if_neg hm4, if_neg hm5,
      if_neg hm6, if_neg hm7, if_neg hm8, if_neg hm9, if_neg hm10,
      if_neg hm11, if_neg hm12, if_neg hm13, if_neg hm14] at h
    rcases exceptMap_ok_inv _ _ _ h with ⟨l, _, hg⟩
    cases hg
  · intro h
    subst h
    simp only [runMethod, String.reduceEq, reduceIte]

/-- Every successful value-rewriting method returns a column of the input
length (the shuffle oracle's length preservation is the library fact that
`random.shuffle` permutes in place). -/
lemma runMethod_length (e : Env) (salt : String) (m : String) (o : Options)
    (vs vs2 : List Value)
    (hsh : ∀ l, (e.shuffleOf l).length = l.length)
    (h : runMethod e salt m o vs = .ok (.newVals vs2)) :
    vs2.length = vs.length := by
  by_cases hm1 : m = "hash"
  · subst hm1
    simp only [runMethod, String.reduceEq, reduceIte] at h
    rcases exceptMap_ok_inv _ _ _ h with ⟨l, hl, hg⟩
    injection hg with hg2
    rw [← hg2, List.length_map]
    exact mapE_ok_length _ _ _ hl
  by_cases hm2 : m = "mask"
  · subst hm2
    simp only [runMethod, String.reduceEq, reduceIte] at h
    injection h with h2
    injection h2 with h3
    rw [← h3, List.length_map]
  by_cases hm3 : m = "pseudonymize"
  · subst hm3
    simp only [runMethod, String.reduceEq, reduceIte] at h
    injection h with h2
    injection h2 with h3
    rw [← h3, List.length_map]
  by_cases hm4 : m = "generalize_numeric"
  · subst hm4
    simp only [runMethod, String.reduceEq, reduceIte] at h
    rcases exceptMap_ok_inv _ _ _ h with ⟨l, hl, hg⟩
    injection hg with hg2
    rw [← hg2]
    exact mapE_ok_length _ _ _ hl
  by_cases hm5 : m = "generalize_date"
  · subst hm5
    simp only [runMethod, String.reduceEq, reduceIte] at h
    injection h with h2
    injection h2 with h3
    rw [← h3, List.length_map]
  by_cases hm6 : m = "anonymize_email"
  · subst hm6
    simp only [runMethod, String.reduceEq, reduceIte] at h
    injection h with h2
    injection h2 with h3
    rw [← h3, List.length_map]
  by_cases hm7 : m = "anonymize_phone"
  · subst hm7
    simp only [runMethod, String.reduceEq, reduceIte] at h
    rcases exceptMap_ok_inv _ _ _ h with ⟨l, hl, hg⟩
    injection hg with hg2
    rw [← hg2]
    exact mapE_ok_length _ _ _ hl
  by_cases hm8 : m = "anonymize_ssn"
  · subst hm8
    simp only [runMethod, String.reduceEq, reduceIte] at h
    injection h with h2
    injection h2 with h3
    rw [← h3, List.length_map]
  by_cases hm9 : m = "k_anonymity"
  · subst hm9
    simp only [runMethod, String.reduceEq, reduceIte] at h
    injection h with h2
    injection h2 with h3
    rw [← h3, k_anonymity_eq_map, List.length_map]
  by_cases hm10 : m = "differential_privacy"
  · subst hm10
    simp only [runMethod, String.reduceEq, reduceIte] at h
    rcases exceptMap_ok_inv _ _ _ h with ⟨l, hl, hg⟩
    injection hg with hg2
    rw [← hg2]
    exact mapIdxE_ok_length _ _ _ _ hl
  by_cases hm11 : m = "shuffle"
  · subst hm11
    simp only [runMethod, String.reduceEq, reduceIte] at h
    injection h with h2
    injection h2 with h3
    rw [← h3]
    exact hsh vs
  by_cases hm12 : m = "substitute"
  · subst hm12
    simp only [runMethod, String.reduceEq, reduceIte] at h
    injection h with h2
    injection h2 with h3
    rw [← h3, List.length_map, List.length_range]
  by_cases hm13 : m = "perturb"
  · subst hm13
    simp only [runMethod, String.reduceEq, reduceIte] at h
    injection h with h2
    injection h2 with h3
    rw [← h3]
    simp
  by_cases hm14 : m = "remove"
  · subst hm14
    simp only [runMethod, String.reduceEq, reduceIte] at h
    cases h
  unfold runMethod at h
  rw [if_neg hm1, if_neg hm2, if_neg hm3, if_neg hm4, if_neg hm5,
    if_neg hm6, if_neg hm7, if_neg hm8, if_neg hm9, if_neg hm10,
    if_neg hm11, if_neg hm12, if_neg hm13, if_neg hm14] at h
  rcases exceptMap_ok_inv _ _ _ h with ⟨l, hl, hg⟩
  injection hg with hg2
  rw [← hg2, List.length_map]
  exact mapE_ok_length _ _ _ hl

/-- Whether a column is configured (under the given sheet configuration)
with a spec resolving to the `remove` method. -/
def isRemoveCfg (cfg : Cfg) (c : String) : Bool :=
  match lookupSpec cfg c with
  | some sp => methodOf sp == "remove"
  | none => false

lemma colOutcome_name (e : Env) (salt : String) (cfg : Cfg)
    (p q : String × List Value) (h : colOutcome e salt cfg p = some q) :
    q.1 = p.1 := by
  unfold colOutcome at h
  cases hl : lookupSpec cfg p.1 with
  | none =>
    rw [hl] at h
    cases h
    rfl
  | some sp =>
    rw [hl] at h
    replace h : (match runMethod e salt (methodOf sp) (optionsOf sp) p.2 with
      | .ok (.newVals vs2) => some (p.1, vs2)
      | .ok .removeCol => none
      | .error _ => some p) = some q := h
    cases hr : runMethod e salt (methodOf sp) (optionsOf sp) p.2 with
    | error msg =>
      rw [hr] at h
      cases h
      rfl
    | ok mres =>
      rw [hr] at h
      cases mres with
      | newVals vs2 =>
        cases h
        rfl
      | removeCol => cases h

lemma colNames_filterMap_colOutcome (e : Env) (salt : String) (cfg : Cfg)
    (t : Table) :
    colNames (t.filterMap (colOutcome e salt cfg)) =
      (colNames t).filter (fun c => ! isRemoveCfg cfg c) := by
  induction t with
  | nil => rfl
  | cons p rest ih =>
    show colNames (List.filterMap _ (p :: rest)) = _
    rw [List.filterMap_cons]
    have hnames : colNames (p :: rest) = p.1 :: colNames rest := rfl
    rw [hnames, List.filter_cons]
    cases hl : lookupSpec cfg p.1 with
    | none =>
      have hco : colOutcome e salt cfg p = some p := by
        simp [colOutcome, hl]
      have hrm : isRemoveCfg cfg p.1 = false := by
        simp [isRemoveCfg, hl]
      rw [hco, hrm]
      show p.1 :: colNames (List.filterMap _ rest) = _
      simp only [Bool.not_false, if_true]
      rw [ih]
    | some sp =>
      cases hr : runMethod e salt (methodOf sp) (optionsOf sp) p.2 with
      | error msg =>
        have hco : colOutcome e salt cfg p = some p := by
          simp [colOutcome, hl, hr]
        have hnr : methodOf sp ≠ "remove" := by
          intro he
          have := (runMethod_removeCol_iff e salt (methodOf sp)
            (optionsOf sp) p.2).mpr he
          rw [hr] at this
          cases this
        have hrm : isRemoveCfg cfg p.1 = false := by
          simp [isRemoveCfg, hl, hnr]
        rw [hco, hrm]
        show p.1 :: colNames (List.filterMap _ rest) = _
        simp only [Bool.not_false, if_true]
        rw [ih]
      | ok mres =>
        cases mres with
        | newVals vs2 =>
          have hco : colOutcome e salt cfg p = some (p.1, vs2) := by
            simp [colOutcome, hl, hr]
          have hnr : methodOf sp ≠ "remove" := by
            intro he
            have := (runMethod_removeCol_iff e salt (methodOf sp)
              (optionsOf sp) p.2).mpr he
            rw [hr] at this
            cases this
          have hrm : isRemoveCfg cfg p.1 = false := by
            simp [isRemoveCfg, hl, hnr]
          rw [hco, hrm]
          show p.1 :: colNames (List.filterMap _ rest) = _
          simp only [Bool.not_false, if_true]
          rw [ih]
        | removeCol =>
          have hco : colOutcome e salt cfg p = none := by
            simp [colOutcome, hl, hr]
          have hre : methodOf sp = "remove" :=
            (runMethod_removeCol_iff e salt (methodOf sp)
              (optionsOf sp) p.2).mp hr
          have hrm : isRemoveCfg cfg p.1 = true := by
            simp [isRemoveCfg, hl, hre]
          rw [hco, hrm]
          simp only [Bool.not_true, Bool.false_eq_true, if_false]
          exact ih

lemma getCol_filterMap_none (f : String × List Value →
      Option (String × List Value))
    (hname : ∀ p q, f p = some q → q.1 = p.1) (t : Table) (c : String)
    (h : getCol t c = none) : getCol (t.filterMap f) c = none := by
  induction t with
  | nil => rfl
  | cons p rest ih =>
    have hp : p.1 ≠ c := by
      intro he
      unfold getCol at h
      rw [if_pos he] at h
      cases h
    have hrest : getCol rest c = none := by
      unfold getCol at h
      rwa [if_neg hp] at h
    rw [List.filterMap_cons]
    cases hf : f p with
    | none => exact ih hrest
    | some q =>
      have hq : q.1 ≠ c := by
        rw [hname p q hf]
        exact hp
      unfold getCol
      rw [if_neg hq]
      exact ih hrest

lemma getCol_filterMap_kept (f : String × List Value →
      Option (String × List Value))
    (hname : ∀ p q, f p = some q → q.1 = p.1) (t : Table) (c : String)
    (vs : List Value) (q : String × List Value)
    (h1 : getCol t c = some vs) (hq : f (c, vs) = some q) :
    getCol (t.filterMap f) c = some q.2 := by
  induction t with
  | nil => cases h1
  | cons p rest ih =>
    rw [List.filterMap_cons]
    by_cases hp : p.1 = c
    · have hv : p.2 = vs := by
        unfold getCol at h1
        rw [if_pos hp] at h1
        exact Option.some_inj.mp h1
      have hpe : p = (c, vs) := by
        rcases p with ⟨p1, p2⟩
        simp only at hp hv
        rw [hp, hv]
      rw [hpe, hq]
      unfold getCol
      rw [if_pos (hname (c, vs) q hq)]
    · have hrest : getCol rest c = some vs := by
        unfold getCol at h1
        rwa [if_neg hp] at h1
      cases hf : f p with
      | none => exact ih hrest
      | some q2 =>
        have hq2 : q2.1 ≠ c := by
          rw [hname p q2 hf]
          exact hp
        unfold getCol
        rw [if_neg hq2]
        exact ih hrest

/-- A configuration with one column's entry removed (used to state that
the remaining columns are processed exactly as they would be without the
failing entry). -/
def eraseKey : Cfg → String → Cfg
  | [], _ => []
  | (c, sp) :: rest, c0 =>
    if c = c0 then rest else (c, sp) :: eraseKey rest c0

lemma lookupSpec_mem_nodup (cfg : Cfg) (hk : (cfg.map Prod.fst).Nodup)
    (col : String) (sp : MSpec) (hmem : (col, sp) ∈ cfg) :
    lookupSpec cfg col = some sp := by
  induction cfg with
  | nil => cases hmem
  | cons pr rest ih =>
    rcases List.mem_cons.mp hmem with he | hm
    · rw [← he]
      simp [lookupSpec]
    · have hne : pr.1 ≠ col := by
        intro he
        exact (List.nodup_cons.mp hk).1
          (he ▸ List.mem_map.mpr ⟨(col, sp), hm, rfl⟩)
      rcases pr with ⟨c, sp2⟩
      simp only [lookupSpec, if_neg hne]
      exact ih (List.nodup_cons.mp hk).2 hm

lemma eraseKey_keys_sublist (cfg : Cfg) (c0 : String) :
    ((eraseKey cfg c0).map Prod.fst).Sublist (cfg.map Prod.fst) := by
  induction cfg with
  | nil => simp [eraseKey]
  | cons pr rest ih =>
    rcases pr with ⟨c, sp⟩
    unfold eraseKey
    by_cases hc : c = c0
    · rw [if_pos hc]
      simp only [List.map_cons]
      exact (List.sublist_cons_self _ _).trans (List.Sublist.refl _)
    · rw [if_neg hc]
      simp only [List.map_cons]
      exact ih.cons₂ c

lemma lookupSpec_eraseKey_self (cfg : Cfg)
    (hk : (cfg.map Prod.fst).Nodup) (c0 : String) :
    lookupSpec (eraseKey cfg c0) c0 = none := by
  induction cfg with
  | nil => rfl
  | cons pr rest ih =>
    rcases pr with ⟨c, sp⟩
    unfold eraseKey
    by_cases hc : c = c0
    · rw [if_pos hc]
      refine lookupSpec_none_of_not_mem rest c0 ?_
      rw [← hc]
      exact (List.nodup_cons.mp hk).1
    · rw [if_neg hc]
      simp only [lookupSpec, if_neg hc]
      exact ih (List.nodup_cons.mp hk).2

lemma lookupSpec_eraseKey_ne (cfg : Cfg) (c0 c : String) (hne : c ≠ c0) :
    lookupSpec (eraseKey cfg c0) c = lookupSpec cfg c := by
  induction cfg with
  | nil => rfl
  | cons pr rest ih =>
    rcases pr with ⟨c1, sp⟩
    unfold eraseKey
    by_cases hc : c1 = c0
    · rw [if_pos hc]
      have h2 : ¬ c1 = c := by
        rw [hc]
        exact fun h => hne h.symm
      simp only [lookupSpec, if_neg h2]
    · rw [if_neg hc]
      simp only [lookupSpec]
      by_cases h2 : c1 = c
      · rw [if_pos h2, if_pos h2]
      · rw [if_neg h2, if_neg h2]
        exact ih

/-- Failure isolation of the dispatcher: a configured column whose method
raises keeps its original values, contributes exactly its log line, and
the rest of the table is what a run without that entry produces. -/
lemma dispatch_error_isolation (e : Env) (salt : String) (t : Table)
    (cfg : Cfg) (hk : (cfg.map Prod.fst).Nodup)
    (hc : (colNames t).Nodup) (col : String) (sp : MSpec)
    (vs : List Value) (msg : String) (hmem : (col, sp) ∈ cfg)
    (hcol : getCol t col = some vs)
    (herr : runMethod e salt (methodOf sp) (optionsOf sp) vs = .error msg) :
    getCol (anonymize_dataframe e salt t cfg).1 col = some vs ∧
    errLine col (methodOf sp) msg ∈ (anonymize_dataframe e salt t cfg).2 ∧
    (anonymize_dataframe e salt t cfg).1 =
      (anonymize_dataframe e salt t (eraseKey cfg col)).1 := by
  have hlk : lookupSpec cfg col = some sp := lookupSpec_mem_nodup cfg hk col sp hmem
  have hk2 : ((eraseKey cfg col).map Prod.fst).Nodup :=
    hk.sublist (eraseKey_keys_sublist cfg col)
  rw [anonymize_dataframe_eq e salt t cfg hk hc,
    anonymize_dataframe_eq e salt t (eraseKey cfg col) hk2 hc]
  refine ⟨?_, ?_, ?_⟩
  · have hf : colOutcome e salt cfg (col, vs) = some (col, vs) := by
      simp [colOutcome, hlk, herr]
    exact getCol_filterMap_kept _ (colOutcome_name e salt cfg) t col vs
      (col, vs) hcol hf
  · refine List.mem_filterMap.mpr ⟨(col, sp), hmem, ?_⟩
    simp [logOutcome, hcol, herr]
  · refine List.filterMap_congr ?_
    intro p hp
    by_cases hpe : p.1 = col
    · have hv : p.2 = vs := by
        have := getCol_mem_nodup t hc p hp
        rw [hpe, hcol] at this
        exact (Option.some_inj.mp this).symm
      have hL : colOutcome e salt cfg p = some p := by
        unfold colOutcome
        rw [hpe, hlk, hv]
        show (match runMethod e salt (methodOf sp) (optionsOf sp) vs with
          | .ok (.newVals vs2) => some (col, vs2)
          | .ok .removeCol => none
          | .error _ => some p) = some p
        rw [herr]
      have hR : colOutcome e salt (eraseKey cfg col) p = some p := by
        unfold colOutcome
        rw [hpe, lookupSpec_eraseKey_self cfg hk col]
      rw [hL, hR]
    · have hR : lookupSpec (eraseKey cfg col) p.1 = lookupSpec cfg p.1 :=
        lookupSpec_eraseKey_ne cfg col p.1 hpe
      unfold colOutcome
      rw [hR]

/-- Claim C2: if a configured column's method raises, the dispatcher
leaves exactly the original, untransformed values in that column (the
write-back happens only after the whole column is computed, so no
partially transformed column can appear), logs the column/method error
line, and processes every remaining configured column exactly as a run
without the failing entry would. -/
theorem C2_error_isolation (e : Env) (salt : String) (t : Table)
    (cfg : Cfg) (hk : (cfg.map Prod.fst).Nodup)
    (hc : (colNames t).Nodup) (col : String) (sp : MSpec)
    (vs : List Value) (msg : String) (hmem : (col, sp) ∈ cfg)
    (hcol : getCol t col = some vs)
    (herr : runMethod e salt (methodOf sp) (optionsOf sp) vs = .error msg) :
    getCol (anonymize_dataframe e salt t cfg).1 col = some vs ∧
    errLine col (methodOf sp) msg ∈ (anonymize_dataframe e salt t cfg).2 ∧
    (anonymize_dataframe e salt t cfg).1 =
      (anonymize_dataframe e salt t (eraseKey cfg col)).1 :=
  dispatch_error_isolation e salt t cfg hk hc col sp vs msg hmem hcol herr

/-- A one-column table and a `hash` configuration naming the unsupported
algorithm `sha1`, for closed evaluations. -/
def tableJohn : Table := [("name", [Value.vStr "John"])]

/-- `{"name": {"method": "hash", "options": {"algorithm": "sha1"}}}`. -/
def cfgSha1 : Cfg :=
  [("name", MSpec.full (some "hash")
    ⟨"sha1", "*", true, "ID", 10, "month", 5, 1, none, none, none, 10,
      false⟩)]

/-- Witness for C2: the isolation theorem applied to the concrete failing
`hash`/`sha1` column. -/
theorem C2_error_isolation_witness :
    getCol (anonymize_dataframe envC "default_salt" tableJohn cfgSha1).1
      "name" = some [Value.vStr "John"] ∧
    errLine "name" "hash" "Unsupported hash algorithm: sha1" ∈
      (anonymize_dataframe envC "default_salt" tableJohn cfgSha1).2 := by
  have h := C2_error_isolation envC "default_salt" tableJohn cfgSha1
    (by decide) (by decide) "name"
    (MSpec.full (some "hash")
      ⟨"sha1", "*", true, "ID", 10, "month", 5, 1, none, none, none, 10,
        false⟩)
    [Value.vStr "John"] "Unsupported hash algorithm: sha1"
    (List.mem_cons_self _ _) rfl rfl
  exact ⟨h.1, h.2.1⟩

/-- Counterexample for claim C6: a job whose configuration names the
unknown hash algorithm `sha1` does *not* fail fast — the `ValueError`
raised by `_generate_secure_hash` is caught by the per-column handler of
`anonymize_dataframe`, the column keeps its original values, the error is
merely logged, and the job completes and produces (writes) the full
output dataset. -/
theorem C6_counterexample :
    anonymize_dataframe envC "default_salt" tableJohn cfgSha1 =
      (tableJohn,
       [errLine "name" "hash" "Unsupported hash algorithm: sha1"]) ∧
    run_anonymization_job envC [("Sheet1", tableJohn)]
      [("Sheet1", cfgSha1)] = [("Sheet1", tableJohn)] := by
  exact ⟨rfl, rfl⟩

lemma runMethod_hash_badalg (e : Env) (salt : String) (o : Options)
    (v : Value) (vs : List Value) (h1 : o.algorithm ≠ "sha256")
    (h2 : o.algorithm ≠ "sha512") (h3 : o.algorithm ≠ "md5") :
    runMethod e salt "hash" o (v :: vs) =
      .error ("Unsupported hash algorithm: " ++ o.algorithm) := by
  simp only [runMethod, String.reduceEq, reduceIte]
  simp only [mapE, hash_value, generate_secure_hash, if_neg h1, if_neg h2,
    if_neg h3]
  rfl

/-- Claim C6 (amended): a `hash` column with an unknown algorithm option
is *not* a fail-fast error: on any nonempty column the `ValueError` is
recovered by the per-column handler — the column keeps its original
values, the descriptive error line is logged, the other configured
columns are processed normally, and the job completes with full output.
(On an empty column `Series.apply` never calls the function, so the
assignment even succeeds silently.) -/
theorem C6_unknown_algorithm_amended (e : Env) (salt : String) (t : Table)
    (cfg : Cfg) (hk : (cfg.map Prod.fst).Nodup)
    (hc : (colNames t).Nodup) (col : String) (o : Options)
    (v : Value) (vs : List Value)
    (hmem : (col, MSpec.full (some "hash") o) ∈ cfg)
    (hcol : getCol t col = some (v :: vs))
    (h1 : o.algorithm ≠ "sha256") (h2 : o.algorithm ≠ "sha512")
    (h3 : o.algorithm ≠ "md5") :
    getCol (anonymize_dataframe e salt t cfg).1 col = some (v :: vs) ∧
    errLine col "hash" ("Unsupported hash algorithm: " ++ o.algorithm) ∈
      (anonymize_dataframe e salt t cfg).2 ∧
    (anonymize_dataframe e salt t cfg).1 =
      (anonymize_dataframe e salt t (eraseKey cfg col)).1 := by
  have herr : runMethod e salt (methodOf (MSpec.full (some "hash") o))
      (optionsOf (MSpec.full (some "hash") o)) (v :: vs) =
      .error ("Unsupported hash algorithm: " ++ o.algorithm) :=
    runMethod_hash_badalg e salt o v vs h1 h2 h3
  exact dispatch_error_isolation e salt t cfg hk hc col
    (MSpec.full (some "hash") o) (v :: vs)
    ("Unsupported hash algorithm: " ++ o.algorithm) hmem hcol herr

/-- Witness for the amended C6 at the concrete `sha1` configuration. -/
theorem C6_unknown_algorithm_amended_witness :
    getCol (anonymize_dataframe envC "default_salt" tableJohn cfgSha1).1
      "name" = some [Value.vStr "John"] ∧
    errLine "name" "hash" ("Unsupported hash algorithm: " ++ "sha1") ∈
      (anonymize_dataframe envC "default_salt" tableJohn cfgSha1).2 := by
  have h := C6_unknown_algorithm_amended envC "default_salt" tableJohn
    cfgSha1 (by decide) (by decide) "name"
    ⟨"sha1", "*", true, "ID", 10, "month", 5, 1, none, none, none, 10,
      false⟩
    (Value.vStr "John") [] (List.mem_cons_self _ _) rfl
    (by decide) (by decide) (by decide)
  exact ⟨h.1, h.2.1⟩

/-- Claim C1: the job output has the same sheet set (names, in order) as
the input; a sheet without a configuration entry passes through
unchanged; for each sheet the column order equals the input order with
exactly the `remove`-configured columns dropped; columns not listed in
the sheet configuration keep their input values unchanged; and the row
count (length of every column) is preserved unconditionally — per-cell
methods map position by position and never reorder rows. -/
theorem C1_job_structure (e : Env)
    (hsh : ∀ l, (e.shuffleOf l).length = l.length)
    (sheets : List (String × Table)) (mcfg : List (String × Cfg)) :
    (run_anonymization_job e sheets mcfg).map Prod.fst =
      sheets.map Prod.fst ∧
    (∀ (n : String) (t : Table), (n, t) ∈ sheets →
      (n, (anonymize_dataframe e jobSalt t (cfgFor mcfg n)).1) ∈
        run_anonymization_job e sheets mcfg) ∧
    (∀ n : String, cfgFor.lookupSheet mcfg n = none →
      ∀ t : Table, (anonymize_dataframe e jobSalt t (cfgFor mcfg n)).1
        = t) ∧
    (∀ (t : Table) (cfg : Cfg), (cfg.map Prod.fst).Nodup →
      (colNames t).Nodup →
      (colNames (anonymize_dataframe e jobSalt t cfg).1 =
        (colNames t).filter (fun c => ! isRemoveCfg cfg c)) ∧
      (∀ c : String, lookupSpec cfg c = none →
        getCol (anonymize_dataframe e jobSalt t cfg).1 c = getCol t c) ∧
      (∀ rc : Nat, (∀ p ∈ t, p.2.length = rc) →
        ∀ p2 ∈ (anonymize_dataframe e jobSalt t cfg).1,
          p2.2.length = rc)) := by
  refine ⟨?_, ?_, ?_, ?_⟩
  · unfold run_anonymization_job
    rw [List.map_map]
    rfl
  · intro n t hmem
    exact List.mem_map.mpr ⟨(n, t), hmem, rfl⟩
  · intro n hn t
    have hcfg : cfgFor mcfg n = [] := by
      unfold cfgFor
      rw [hn]
      rfl
    rw [hcfg]
    rfl
  · intro t cfg hk hc
    refine ⟨?_, ?_, ?_⟩
    · rw [anonymize_dataframe_eq e jobSalt t cfg hk hc]
      exact colNames_filterMap_colOutcome e jobSalt cfg t
    · intro c hlk
      rw [anonymize_dataframe_eq e jobSalt t cfg hk hc]
      cases hg : getCol t c with
      | none =>
        rw [getCol_filterMap_none _ (colOutcome_name e jobSalt cfg) t c hg]
      | some vs =>
        have hf : colOutcome e jobSalt cfg (c, vs) = some (c, vs) := by
          simp [colOutcome, hlk]
        rw [getCol_filterMap_kept _ (colOutcome_name e jobSalt cfg)
          t c vs (c, vs) hg hf]
    · intro rc hrc p2 hp2
      rw [anonymize_dataframe_eq e jobSalt t cfg hk hc] at hp2
      rcases List.mem_filterMap.mp hp2 with ⟨p, hp, hf⟩
      unfold colOutcome at hf
      cases hl : lookupSpec cfg p.1 with
      | none =>
        rw [hl] at hf
        cases hf
        exact hrc _ hp
      | some sp =>
        rw [hl] at hf
        replace hf : (match runMethod e jobSalt (methodOf sp)
            (optionsOf sp) p.2 with
          | .ok (.newVals vs2) => some (p.1, vs2)
          | .ok .removeCol => none
          | .error _ => some p) = some p2 := hf
        cases hr : runMethod e jobSalt (methodOf sp) (optionsOf sp) p.2 with
        | error msg =>
          rw [hr] at hf
          cases hf
          exact hrc _ hp
        | ok mres =>
          rw [hr] at hf
          cases mres with
          | removeCol => cases hf
          | newVals vs2 =>
            cases hf
            show vs2.length = rc
            rw [runMethod_length e jobSalt (methodOf sp) (optionsOf sp)
              p.2 vs2 hsh hr]
            exact hrc p hp

/-- A three-column, two-row sheet and a configuration removing `ssn`,
matching the spec's remove round-trip scenario. -/
def tableThree : Table :=
  [("name", [Value.vStr "John", Value.vStr "Jane"]),
   ("ssn", [Value.vStr "123-45-6789", Value.vStr "987-65-4321"]),
   ("age", [Value.vInt 30, Value.vInt 40])]

/-- `{"ssn": "remove"}`. -/
def cfgRemoveSSN : Cfg := [("ssn", MSpec.bare "remove")]

/-- Witness for C1: sheet names preserved, `remove` drops exactly `ssn`
keeping column order, the unlisted `name` column is unchanged, and both
remaining columns still have the input row count 2. -/
theorem C1_job_structure_witness :
    (run_anonymization_job envC [("Sheet1", tableThree)]
      [("Sheet1", cfgRemoveSSN)]).map Prod.fst = ["Sheet1"] ∧
    colNames (anonymize_dataframe envC jobSalt tableThree cfgRemoveSSN).1 =
      ["name", "age"] ∧
    getCol (anonymize_dataframe envC jobSalt tableThree cfgRemoveSSN).1
      "name" = getCol tableThree "name" ∧
    (∀ p2 ∈ (anonymize_dataframe envC jobSalt tableThree cfgRemoveSSN).1,
      p2.2.length = 2) := by
  have h := C1_job_structure envC (fun l => rfl)
    [("Sheet1", tableThree)] [("Sheet1", cfgRemoveSSN)]
  have h4 := h.2.2.2 tableThree cfgRemoveSSN (by decide) (by decide)
  refine ⟨?_, ?_, h4.2.1 "name" (by decide), ?_⟩
  · rw [h.1]
    rfl
  · rw [h4.1]
    decide
  · intro p2 hp2
    exact h4.2.2 2 (by decide) p2 hp2

/-- Claim C10: `run_anonymization_job` constructs `DataAnonymizer()` with
no salt argument, so every job run uses the hard-coded constant salt
`"default_salt"`; consequently each hash-derived output over the job
interface is a fixed function of the input value and the digest functions
alone (identical across independent jobs and processes, which share the
same real digest functions). -/
theorem C10_default_salt (e : Env) :
    jobSalt = "default_salt" ∧
    mkAnonSalt none = "default_salt" ∧
    (∀ (sheets : List (String × Table)) (mcfg : List (String × Cfg)),
      run_anonymization_job e sheets mcfg =
        sheets.map (fun p => (p.1, (anonymize_dataframe e "default_salt"
          p.2 (cfgFor mcfg p.1)).1))) ∧
    (∀ v : String, hash_value e jobSalt v "sha256" =
      .ok (e.sha256 (v ++ "default_salt"))) ∧
    (∀ v : String, hash_value e jobSalt v "sha512" =
      .ok (e.sha512 (v ++ "default_salt"))) ∧
    (∀ v : String, hash_value e jobSalt v "md5" =
      .ok (e.md5 (v ++ "default_salt"))) ∧
    (∀ (v : Value) (pfx : String), pseudonymize_value e jobSalt v pfx =
      pfx ++ "_" ++ String.mk
        ((e.sha256 (strOfValue v ++ "default_salt")).data.take 8)) ∧
    (∀ v : Value, anonymize_email e jobSalt v =
      anonymize_email e "default_salt" v) ∧
    (∀ v : Value, anonymize_phone e jobSalt v =
      anonymize_phone e "default_salt" v) ∧
    (∀ v : Value, anonymize_ssn e jobSalt v =
      anonymize_ssn e "default_salt" v) := by
  refine ⟨rfl, rfl, fun sheets mcfg => rfl, fun v => ?_, fun v => ?_,
    fun v => ?_, fun v pfx => rfl, fun v => rfl, fun v => rfl,
    fun v => rfl⟩
  · rfl
  · rfl
  · rfl
